import Mathlib

/-!
Verification of `PyInstaller/depend/bytecode.py`, a bytecode instruction-stream
pattern scanner.  The module is shallowly embedded: the instruction stream of a
compiled code unit (`co_code`) is a `List Nat` of byte values, the name and
constant side tables (`co_names`, `co_consts`) are explicit lists, and each
Python function of the module is translated to an executable Lean definition.
Python's `re` pattern matching over the two fixed byte patterns of the module
is rendered as deterministic recursive matchers; the accompanying comments
record why, for these particular patterns (whose opcode sets are pairwise
disjoint and never contain the `EXTENDED_ARG` byte), the rendering coincides
with the leftmost, greedy, backtracking semantics of the `re` engine.
-/

namespace Bytecode

/-! ### Opcode table

Byte values of the opcodes named by the module's patterns, as given by
`dis.opmap` of the hosting CPython (3.7–3.9 line targeted by the module). -/

def LOAD_CONST : Nat := 100
def LOAD_NAME : Nat := 101
def LOAD_ATTR : Nat := 106
def LOAD_GLOBAL : Nat := 116
def LOAD_FAST : Nat := 124
def CALL_FUNCTION : Nat := 131
def EXTENDED_ARG : Nat := 144
def LOAD_METHOD : Nat := 160
def CALL_METHOD : Nat := 161

/-! ### Operand decoder -/

/-- Python's slice `bs[1::2]`: the bytes at odd offsets 1, 3, 5, …
(each instruction's operand byte when `bs` is a stream of
(opcode, operand) pairs). -/
def everySecond : List Nat → List Nat
  | _ :: b :: rest => b :: everySecond rest
  | _ => []

/-- Python's `int.from_bytes(l, "big")`: big-endian base-256 accumulation. -/
def from_bytes_be (l : List Nat) : Nat :=
  l.foldl (fun acc b => 256 * acc + b) 0

/-- Translation of `extended_arguments` (bytecode.py lines 103–114):
`int.from_bytes(extended_args[1::2], "big")`. -/
def extended_arguments (extended_args : List Nat) : Nat :=
  from_bytes_be (everySecond extended_args)

/-- One match of the `_extended_arg_bytecode` pattern
`((?:EXTENDED_ARG .)* [^EXTENDED_ARG] .)` at the head of the input, returning
the matched bytes and the remainder.  The greedy star consumes
(`EXTENDED_ARG`, operand) pairs; when it stops, the negated class must match a
non-`EXTENDED_ARG` byte.  Backtracking an iteration of the star would place the
negated class on an `EXTENDED_ARG` byte, which fails, so a failure of the
continuation is a failure of the whole match: the deterministic recursion below
is exactly the `re` semantics of this pattern. -/
def matchEA : List Nat → Option (List Nat × List Nat)
  | a :: b :: rest =>
    if a = EXTENDED_ARG then
      match matchEA rest with
      | some (m, r) => some (a :: b :: m, r)
      | none => none
    else
      some ([a, b], rest)
  | _ => none

theorem matchEA_rest_length : ∀ (bs m r : List Nat), matchEA bs = some (m, r) →
    r.length + 2 ≤ bs.length
  | [], _, _ => by simp [matchEA]
  | [_], _, _ => by simp [matchEA]
  | a :: b :: rest, m, r => by
    intro h
    rw [matchEA] at h
    split at h
    · cases hm : matchEA rest with
      | none => rw [hm] at h; exact absurd h (by simp)
      | some p =>
        obtain ⟨m', r'⟩ := p
        rw [hm] at h
        simp only [Option.some.injEq, Prod.mk.injEq] at h
        obtain ⟨-, h2⟩ := h
        have := matchEA_rest_length rest m' r' hm
        simp only [List.length_cons, ← h2]
        omega
    · simp only [Option.some.injEq, Prod.mk.injEq] at h
      simp [← h.2]

/-- `_extended_arg_bytecode.findall(raw)`: scan left to right; at each position
either take the (non-overlapping) match starting there and resume after it, or
advance one byte. -/
def findallEA (bs : List Nat) : List (List Nat) :=
  match bs with
  | [] => []
  | a :: rest =>
    match h : matchEA (a :: rest) with
    | some (m, r) => m :: findallEA r
    | none => findallEA rest
termination_by bs.length
decreasing_by
  · have := matchEA_rest_length (a :: rest) m r h
    simp only [List.length_cons] at *
    omega
  · simp

/-- Translation of `parse_loads` (bytecode.py lines 117–119):
`map(extended_arguments, _extended_arg_bytecode.findall(raw))`. -/
def parse_loads (raw : List Nat) : List Nat :=
  (findallEA raw).map extended_arguments

/-! ### Extension chains

An extension chain: `exts` lists the operand bytes of the leading
`EXTENDED_ARG` instructions, `opcode`/`arg` are the terminal instruction. -/

structure Chain where
  exts : List Nat
  opcode : Nat
  arg : Nat
deriving DecidableEq, Repr

def Chain.encode (c : Chain) : List Nat :=
  (c.exts.map (fun b => [EXTENDED_ARG, b])).flatten ++ [c.opcode, c.arg]

/-- The integer a chain denotes: its operand bytes, big-endian. -/
def Chain.value (c : Chain) : Nat :=
  from_bytes_be (c.exts ++ [c.arg])

theorem everySecond_encode (c : Chain) :
    everySecond c.encode = c.exts ++ [c.arg] := by
  obtain ⟨exts, op, arg⟩ := c
  induction exts with
  | nil => rfl
  | cons e es ih =>
    simpa [Chain.encode, everySecond] using ih

theorem extended_arguments_encode (c : Chain) :
    extended_arguments c.encode = c.value := by
  rw [extended_arguments, everySecond_encode, Chain.value]

theorem from_bytes_be_foldl_init (l : List Nat) : ∀ n : Nat,
    l.foldl (fun acc b => 256 * acc + b) n =
      256 ^ l.length * n + Nat.ofDigits 256 l.reverse := by
  induction l with
  | nil => intro n; simp [Nat.ofDigits]
  | cons a l ih =>
    intro n
    have happ : Nat.ofDigits 256 (l.reverse ++ [a]) =
        Nat.ofDigits 256 l.reverse + 256 ^ l.length * a := by
      rw [Nat.ofDigits_append]
      simp [Nat.ofDigits]
    simp only [List.foldl_cons, List.length_cons, List.reverse_cons, ih, happ]
    ring

/-- `from_bytes_be` is the standard big-endian positional interpretation. -/
theorem from_bytes_be_eq_ofDigits (l : List Nat) :
    from_bytes_be l = Nat.ofDigits 256 l.reverse := by
  rw [from_bytes_be, from_bytes_be_foldl_init]
  ring

theorem matchEA_encode (c : Chain) (rest : List Nat) (h : c.opcode ≠ EXTENDED_ARG) :
    matchEA (c.encode ++ rest) = some (c.encode, rest) := by
  obtain ⟨exts, op, arg⟩ := c
  induction exts with
  | nil => simp [Chain.encode, matchEA, h]
  | cons e es ih =>
    simp only [Chain.encode, List.map_cons, List.flatten_cons, List.cons_append,
      List.append_assoc, List.nil_append] at *
    rw [matchEA, if_pos rfl, ih h]

theorem findallEA_nil : findallEA [] = [] := by
  rw [findallEA]

theorem findallEA_eq_cons {bs m r : List Nat} (h : matchEA bs = some (m, r)) :
    findallEA bs = m :: findallEA r := by
  cases bs with
  | nil => simp [matchEA] at h
  | cons a rest =>
    rw [findallEA]
    split
    · next m' r' hm => rw [h] at hm; cases hm; rfl
    · next hm => rw [h] at hm; cases hm

theorem findallEA_flatten : ∀ (chains : List Chain),
    (∀ c ∈ chains, c.opcode ≠ EXTENDED_ARG) →
    findallEA ((chains.map Chain.encode).flatten) = chains.map Chain.encode := by
  intro chains
  induction chains with
  | nil => intro _; simpa using findallEA_nil
  | cons c cs ih =>
    intro h
    have hc : c.opcode ≠ EXTENDED_ARG := h c (by simp)
    have hm : matchEA (c.encode ++ (cs.map Chain.encode).flatten) =
        some (c.encode, (cs.map Chain.encode).flatten) := matchEA_encode c _ hc
    simp only [List.map_cons, List.flatten_cons]
    rw [findallEA_eq_cons hm, ih (fun d hd => h d (by simp [hd]))]

/-- Independent decoding of each back-to-back chain. -/
theorem parse_loads_flatten (chains : List Chain)
    (h : ∀ c ∈ chains, c.opcode ≠ EXTENDED_ARG) :
    parse_loads ((chains.map Chain.encode).flatten) = chains.map Chain.value := by
  rw [parse_loads, findallEA_flatten chains h]
  simp [extended_arguments_encode]

theorem everySecond_congr : ∀ (bs cs : List Nat), bs.length = cs.length →
    (∀ i, i < bs.length → i % 2 = 1 → bs.getD i 0 = cs.getD i 0) →
    everySecond bs = everySecond cs
  | [], [], _, _ => rfl
  | [_], [_], _, _ => rfl
  | a :: b :: r, c :: d :: s, hlen, hodd => by
    have hbd : b = d := by
      have := hodd 1 (by simp) (by decide)
      simpa [List.getD] using this
    have hrec : everySecond r = everySecond s := by
      apply everySecond_congr r s
      · simpa using hlen
      · intro i hi hodd'
        have := hodd (i + 2) (by simp; omega) (by omega)
        simpa [List.getD] using this
    simp [everySecond, hbd, hrec]
  | [], _ :: _, hlen, _ => by simp at hlen
  | [_], [], hlen, _ => by simp at hlen
  | [_], _ :: _ :: _, hlen, _ => by simp at hlen
  | _ :: _ :: _, [], hlen, _ => by simp at hlen
  | _ :: _ :: _, [_], hlen, _ => by simp at hlen

/-! ### The `_call_function_bytecode` matcher

The pattern (bytecode.py lines 67–89) consists of four capture groups over
2-byte instructions:

  group 1: `(EXTENDED_ARG .)* (LOAD_NAME|LOAD_GLOBAL|LOAD_FAST) .`
  group 2: `((EXTENDED_ARG .)* (LOAD_METHOD|LOAD_ATTR) .)*`
  group 3: `((EXTENDED_ARG .)* LOAD_CONST .)*`
  group 4: `(EXTENDED_ARG .)* (CALL_FUNCTION|CALL_METHOD) .`

Every element of the pattern consumes exactly two bytes, so within one match
attempt all positions visited keep the attempt's parity.  The opcode classes
`{LOAD_NAME, LOAD_GLOBAL, LOAD_FAST}`, `{LOAD_METHOD, LOAD_ATTR}`,
`{LOAD_CONST}` and `{CALL_FUNCTION, CALL_METHOD}` are pairwise disjoint and
none contains `EXTENDED_ARG`.  Consequently no backtracking of the `re` engine
across group boundaries can ever succeed: removing an iteration from the
group-2 (resp. group-3) star restarts the continuation at a position whose
extension run is followed by a `LOAD_METHOD`/`LOAD_ATTR` (resp. `LOAD_CONST`)
byte, on which both the next star's body and the group-4 terminal class fail;
removing an iteration of an `(EXTENDED_ARG .)*` star places a terminal class
on the `EXTENDED_ARG` byte, which fails.  The deterministic recursion below is
therefore exactly the leftmost-greedy semantics of the compiled pattern. -/

/-- One extension-chained instruction whose terminal opcode lies in `S`:
the greedy `(EXTENDED_ARG .)* [S] .` element.  On failure of the recursive
(greedy) branch the engine backtracks one star iteration and retries the
terminal class on the `EXTENDED_ARG` byte itself, which is kept faithfully
even though `EXTENDED_ARG` is never in `S` for the sets used here. -/
def matchChainIn (S : List Nat) : List Nat → Option (List Nat × List Nat)
  | a :: b :: rest =>
    if a = EXTENDED_ARG then
      match matchChainIn S rest with
      | some (m, r) => some (a :: b :: m, r)
      | none => if a ∈ S then some ([a, b], rest) else none
    else if a ∈ S then some ([a, b], rest) else none
  | _ => none

theorem matchChainIn_rest_length (S : List Nat) :
    ∀ (bs m r : List Nat), matchChainIn S bs = some (m, r) →
    r.length + 2 ≤ bs.length
  | [], _, _ => by simp [matchChainIn]
  | [_], _, _ => by simp [matchChainIn]
  | a :: b :: rest, m, r => by
    intro h
    rw [matchChainIn] at h
    split at h
    · cases hm : matchChainIn S rest with
      | none =>
        simp only [hm] at h
        split at h
        · simp only [Option.some.injEq, Prod.mk.injEq] at h
          simp [← h.2]
        · cases h
      | some p =>
        obtain ⟨m', r'⟩ := p
        simp only [hm, Option.some.injEq, Prod.mk.injEq] at h
        obtain ⟨-, h2⟩ := h
        have := matchChainIn_rest_length S rest m' r' hm
        simp only [List.length_cons, ← h2]
        omega
    · split at h
      · simp only [Option.some.injEq, Prod.mk.injEq] at h
        simp [← h.2]
      · cases h

/-- Greedy star of extension-chained instructions with terminal opcode in `S`
(groups 2 and 3 of the pattern); returns the flat matched span and the rest.
As justified above, the `re` engine never profits from giving back an
iteration of this star, so the greedy recursion is faithful. -/
def matchChainsIn (S : List Nat) (bs : List Nat) : List Nat × List Nat :=
  match h : matchChainIn S bs with
  | some (m, r) =>
    match matchChainsIn S r with
    | (ms, r2) => (m ++ ms, r2)
  | none => ([], bs)
termination_by bs.length
decreasing_by
  have := matchChainIn_rest_length S bs m r h
  omega

theorem matchChainsIn_rest_length (S : List Nat) (bs : List Nat) :
    (matchChainsIn S bs).2.length ≤ bs.length := by
  have H : ∀ (n : Nat) (bs : List Nat), bs.length ≤ n →
      (matchChainsIn S bs).2.length ≤ bs.length := by
    intro n
    induction n with
    | zero =>
      intro bs hb
      have hbs : bs = [] := List.length_eq_zero.mp (Nat.le_zero.mp hb)
      subst hbs
      rw [matchChainsIn]
      simp [matchChainIn]
    | succ n ih =>
      intro bs hb
      rw [matchChainsIn]
      split
      · next m r hm =>
        have hlt := matchChainIn_rest_length S bs m r hm
        have hr := ih r (by omega)
        split
        · next ms r2 hms =>
          rw [hms] at hr
          simp only at hr ⊢
          omega
      · simp
  exact H bs.length bs le_rfl

def NAME_OPS : List Nat := [LOAD_NAME, LOAD_GLOBAL, LOAD_FAST]
def ATTR_OPS : List Nat := [LOAD_METHOD, LOAD_ATTR]
def CONST_OPS : List Nat := [LOAD_CONST]
def CALL_OPS : List Nat := [CALL_FUNCTION, CALL_METHOD]

/-- The four numbered capture groups of one match of
`_call_function_bytecode`. -/
structure Groups where
  g1 : List Nat
  g2 : List Nat
  g3 : List Nat
  g4 : List Nat
deriving DecidableEq, Repr

/-- One match attempt of the full call-site pattern at the head of `bs`. -/
def matchCallAt (bs : List Nat) : Option (Groups × List Nat) :=
  match matchChainIn NAME_OPS bs with
  | none => none
  | some (g1, r1) =>
    match matchChainsIn ATTR_OPS r1 with
    | (g2, r2) =>
      match matchChainsIn CONST_OPS r2 with
      | (g3, r3) =>
        match matchChainIn CALL_OPS r3 with
        | none => none
        | some (g4, r4) => some (⟨g1, g2, g3, g4⟩, r4)

theorem matchCallAt_rest_length : ∀ (bs : List Nat) (g : Groups) (r : List Nat),
    matchCallAt bs = some (g, r) → r.length + 2 ≤ bs.length := by
  intro bs g r h
  rw [matchCallAt] at h
  cases h1 : matchChainIn NAME_OPS bs with
  | none => simp [h1] at h
  | some p1 =>
    obtain ⟨g1, r1⟩ := p1
    simp only [h1] at h
    have hb1 := matchChainIn_rest_length NAME_OPS bs g1 r1 h1
    have hb2 := matchChainsIn_rest_length ATTR_OPS r1
    cases h2 : matchChainsIn ATTR_OPS r1 with
    | mk g2 r2 =>
      rw [h2] at hb2
      simp only [h2] at h
      have hb3 := matchChainsIn_rest_length CONST_OPS r2
      cases h3 : matchChainsIn CONST_OPS r2 with
      | mk g3 r3 =>
        rw [h3] at hb3
        simp only [h3] at h
        cases h4 : matchChainIn CALL_OPS r3 with
        | none => simp [h4] at h
        | some p4 =>
          obtain ⟨g4, r4⟩ := p4
          simp only [h4, Option.some.injEq, Prod.mk.injEq] at h
          have hb4 := matchChainIn_rest_length CALL_OPS r3 g4 r4 h4
          obtain ⟨-, h2'⟩ := h
          simp only at hb2 hb3
          simp only [← h2']
          omega

/-- `_call_function_bytecode.finditer(code.co_code)`: left-to-right scan for
non-overlapping matches, advancing one byte past positions where no match
starts, and resuming right after each match. -/
def finditerCall (bs : List Nat) : List Groups :=
  match bs with
  | [] => []
  | a :: rest =>
    match h : matchCallAt (a :: rest) with
    | some (g, r) => g :: finditerCall r
    | none => finditerCall rest
termination_by bs.length
decreasing_by
  · have := matchCallAt_rest_length (a :: rest) g r h
    simp only [List.length_cons] at *
    omega
  · simp

/-! ### Compiled code units

A Python code object as the scanner sees it: the instruction stream
`co_code`, the name table `co_names` and the constant table `co_consts`,
whose entries may themselves be nested code objects. -/

mutual
inductive Const where
  | intv : Int → Const
  | strv : String → Const
  | boolv : Bool → Const
  | nonev : Const
  | codev : CodeUnit → Const
inductive CodeUnit where
  | mk : List Nat → List String → List Const → CodeUnit
end

mutual

def Const.beq' : Const → Const → Bool
  | .intv a, .intv b => a == b
  | .strv a, .strv b => a == b
  | .boolv a, .boolv b => a == b
  | .nonev, .nonev => true
  | .codev a, .codev b => CodeUnit.beq' a b
  | _, _ => false

def CodeUnit.beq' : CodeUnit → CodeUnit → Bool
  | .mk c1 n1 k1, .mk c2 n2 k2 => c1 == c2 && n1 == n2 && Const.beqList k1 k2

def Const.beqList : List Const → List Const → Bool
  | [], [] => true
  | a :: as, b :: bs => Const.beq' a b && Const.beqList as bs
  | _, _ => false

end

mutual

theorem Const.beq_sound : ∀ (a b : Const), Const.beq' a b = true → a = b
  | .intv x, .intv y => by simp [Const.beq']
  | .strv x, .strv y => by simp [Const.beq']
  | .boolv x, .boolv y => by simp [Const.beq']
  | .nonev, .nonev => by simp
  | .codev x, .codev y => by
    intro h
    simp only [Const.beq'] at h
    exact congrArg Const.codev (CodeUnit.bequnit_sound x y h)
  | .intv _, .strv _ => by simp [Const.beq']
  | .intv _, .boolv _ => by simp [Const.beq']
  | .intv _, .nonev => by simp [Const.beq']
  | .intv _, .codev _ => by simp [Const.beq']
  | .strv _, .intv _ => by simp [Const.beq']
  | .strv _, .boolv _ => by simp [Const.beq']
  | .strv _, .nonev => by simp [Const.beq']
  | .strv _, .codev _ => by simp [Const.beq']
  | .boolv _, .intv _ => by simp [Const.beq']
  | .boolv _, .strv _ => by simp [Const.beq']
  | .boolv _, .nonev => by simp [Const.beq']
  | .boolv _, .codev _ => by simp [Const.beq']
  | .nonev, .intv _ => by simp [Const.beq']
  | .nonev, .strv _ => by simp [Const.beq']
  | .nonev, .boolv _ => by simp [Const.beq']
  | .nonev, .codev _ => by simp [Const.beq']
  | .codev _, .intv _ => by simp [Const.beq']
  | .codev _, .strv _ => by simp [Const.beq']
  | .codev _, .boolv _ => by simp [Const.beq']
  | .codev _, .nonev => by simp [Const.beq']

theorem CodeUnit.bequnit_sound : ∀ (a b : CodeUnit), CodeUnit.beq' a b = true → a = b
  | .mk c1 n1 k1, .mk c2 n2 k2 => by
    intro h
    simp only [CodeUnit.beq', Bool.and_eq_true, beq_iff_eq] at h
    obtain ⟨⟨h1, h2⟩, h3⟩ := h
    rw [h1, h2, Const.beqList_sound k1 k2 h3]

theorem Const.beqList_sound : ∀ (as bs : List Const),
    Const.beqList as bs = true → as = bs
  | [], [] => by simp
  | [], _ :: _ => by simp [Const.beqList]
  | _ :: _, [] => by simp [Const.beqList]
  | a :: as, b :: bs => by
    intro h
    simp only [Const.beqList, Bool.and_eq_true] at h
    rw [Const.beq_sound a b h.1, Const.beqList_sound as bs h.2]

end

mutual

theorem Const.beq_refl : ∀ a : Const, Const.beq' a a = true
  | .intv _ => by simp [Const.beq']
  | .strv _ => by simp [Const.beq']
  | .boolv _ => by simp [Const.beq']
  | .nonev => rfl
  | .codev x => by
    simp only [Const.beq']
    exact CodeUnit.bequnit_refl x

theorem CodeUnit.bequnit_refl : ∀ a : CodeUnit, CodeUnit.beq' a a = true
  | .mk c n k => by
    simp only [CodeUnit.beq', Bool.and_eq_true, beq_self_eq_true, true_and]
    exact Const.beqList_refl k

theorem Const.beqList_refl : ∀ as : List Const, Const.beqList as as = true
  | [] => rfl
  | a :: as => by
    simp only [Const.beqList, Bool.and_eq_true]
    exact ⟨Const.beq_refl a, Const.beqList_refl as⟩

end

instance : DecidableEq Const := fun a b =>
  if h : Const.beq' a b = true then isTrue (Const.beq_sound a b h)
  else isFalse (fun he => h (he ▸ Const.beq_refl a))

instance : DecidableEq CodeUnit := fun a b =>
  if h : CodeUnit.beq' a b = true then isTrue (CodeUnit.bequnit_sound a b h)
  else isFalse (fun he => h (he ▸ CodeUnit.bequnit_refl a))

def CodeUnit.co_code : CodeUnit → List Nat
  | .mk c _ _ => c

def CodeUnit.co_names : CodeUnit → List String
  | .mk _ n _ => n

def CodeUnit.co_consts : CodeUnit → List Const
  | .mk _ _ k => k

/-- A call-site fact: the dotted callable name and its constant arguments. -/
def Fact : Type := String × List Const

/-! ### `function_calls` -/

/-- The list comprehension `[code.co_names[i] for i in indices]`: left-to-right
lookups, raising (modelled as `Except.error`) on the first out-of-range
index. -/
def lookupNames (code : CodeUnit) : List Nat → Except Unit (List String)
  | [] => .ok []
  | i :: is =>
    match code.co_names.get? i with
    | none => .error ()
    | some n =>
      match lookupNames code is with
      | .error e => .error e
      | .ok ns => .ok (n :: ns)

/-- The list comprehension `[code.co_consts[i] for i in indices]`. -/
def lookupConsts (code : CodeUnit) : List Nat → Except Unit (List Const)
  | [] => .ok []
  | i :: is =>
    match code.co_consts.get? i with
    | none => .error ()
    | some c =>
      match lookupConsts code is with
      | .error e => .error e
      | .ok cs => .ok (c :: cs)

/-- The body of the `for match in …` loop of `function_calls` (bytecode.py
lines 128–146) for one match: resolve the root name, the attribute chain and
the constant arguments against the unit's tables (in the source's order, so an
out-of-range index raises before the argument-count test), then discard the
match when the decoded invocation argument count disagrees with the number of
constant arguments, and otherwise build the fact. -/
def processMatch (code : CodeUnit) (g : Groups) : Except Unit (Option Fact) :=
  match code.co_names.get? (extended_arguments g.g1) with
  | none => .error ()
  | some function_root =>
    match lookupNames code (parse_loads g.g2) with
    | .error e => .error e
    | .ok methods =>
      match lookupConsts code (parse_loads g.g3) with
      | .error e => .error e
      | .ok args =>
        if extended_arguments g.g4 ≠ args.length then .ok none
        else .ok (some (String.intercalate "." (function_root :: methods), args))

/-- The `for` loop of `function_calls` with its accumulator `out`. -/
def function_calls_go (code : CodeUnit) : List Groups → List Fact →
    Except Unit (List Fact)
  | [], out => .ok out
  | g :: gs, out =>
    match processMatch code g with
    | .error e => .error e
    | .ok none => function_calls_go code gs out
    | .ok (some f) => function_calls_go code gs (out ++ [f])

/-- Translation of `function_calls` (bytecode.py lines 122–148). -/
def function_calls (code : CodeUnit) : Except Unit (List Fact) :=
  function_calls_go code (finditerCall code.co_code) []

/-- The fact a single matched site contributes, `none` for a discarded or
erroring site (used to state which sites contribute which facts). -/
def siteFact (code : CodeUnit) (g : Groups) : Option Fact :=
  match processMatch code g with
  | .ok o => o
  | .error _ => none

/-! ### `search_recursively`

Python's `_memo` is a `dict` keyed by the code objects themselves.  CPython
code objects implement `__eq__`/`__hash__` structurally (`code_richcompare`
compares the instruction bytes, names, constants, … fields), so `dict`
membership of a code unit is decided by structural equality, which on the
embedding is plain equality of `CodeUnit` values.  The dict preserves
insertion order, so it is modelled as an association list extended at the
end.  `search_recursively` recurses into children only when the unit was not
already a key, inserting the unit's own result first; the `for const in
code.co_consts` loop threads the memo left to right, which `searchConsts`
renders. -/

def keys {α : Type} (memo : List (CodeUnit × α)) : List CodeUnit :=
  memo.map Prod.fst

theorem sizeOf_co_consts_lt (code : CodeUnit) : sizeOf code.co_consts < sizeOf code := by
  cases code with
  | mk c n k =>
    simp only [CodeUnit.co_consts, CodeUnit.mk.sizeOf_spec]
    omega

theorem sizeOf_codev_head_lt (cu : CodeUnit) (c : Const) (rest : List Const)
    (h : c = Const.codev cu) : sizeOf cu < sizeOf (c :: rest) := by
  subst h
  simp only [List.cons.sizeOf_spec, Const.codev.sizeOf_spec]
  omega

mutual

/-- Translation of `search_recursively` (bytecode.py lines 151–161) for a
per-unit analysis that does not raise. -/
def search_recursively {α : Type} (search : CodeUnit → α) (code : CodeUnit)
    (memo : List (CodeUnit × α)) : List (CodeUnit × α) :=
  if code ∈ keys memo then memo
  else searchConsts search code.co_consts (memo ++ [(code, search code)])
termination_by sizeOf code
decreasing_by
  exact sizeOf_co_consts_lt code

/-- The `for const in code.co_consts` loop of `search_recursively`. -/
def searchConsts {α : Type} (search : CodeUnit → α) :
    List Const → List (CodeUnit × α) → List (CodeUnit × α)
  | [], memo => memo
  | .codev cu :: rest, memo =>
    searchConsts search rest (search_recursively search cu memo)
  | _ :: rest, memo => searchConsts search rest memo
termination_by cs _ => sizeOf cs
decreasing_by
  · exact sizeOf_codev_head_lt cu _ rest rfl
  · simp only [List.cons.sizeOf_spec]; omega
  · simp only [List.cons.sizeOf_spec]; omega

end

mutual

/-- Translation of `search_recursively` for a per-unit analysis that may
raise (Python exceptions propagate out of the traversal uncaught); the
composition with `function_calls` below is `recursive_function_calls`. -/
def search_recursivelyE {α : Type} (search : CodeUnit → Except Unit α)
    (code : CodeUnit) (memo : List (CodeUnit × α)) :
    Except Unit (List (CodeUnit × α)) :=
  if code ∈ keys memo then .ok memo
  else
    match search code with
    | .error e => .error e
    | .ok v => searchConstsE search code.co_consts (memo ++ [(code, v)])
termination_by sizeOf code
decreasing_by
  exact sizeOf_co_consts_lt code

def searchConstsE {α : Type} (search : CodeUnit → Except Unit α) :
    List Const → List (CodeUnit × α) → Except Unit (List (CodeUnit × α))
  | [], memo => .ok memo
  | .codev cu :: rest, memo =>
    match search_recursivelyE search cu memo with
    | .error e => .error e
    | .ok memo' => searchConstsE search rest memo'
  | _ :: rest, memo => searchConstsE search rest memo
termination_by cs _ => sizeOf cs
decreasing_by
  · exact sizeOf_codev_head_lt cu _ rest rfl
  · simp only [List.cons.sizeOf_spec]; omega
  · simp only [List.cons.sizeOf_spec]; omega

end

/-- Translation of `recursive_function_calls` (bytecode.py lines 164–167). -/
def recursive_function_calls (code : CodeUnit) :
    Except Unit (List (CodeUnit × List Fact)) :=
  search_recursivelyE function_calls code []

/-- Reachability in the nested-unit graph: a unit reaches itself and every
unit reachable from a code constant of its constant table. -/
inductive Reachable : CodeUnit → CodeUnit → Prop
  | refl (c : CodeUnit) : Reachable c c
  | step {c u : CodeUnit} (cu : CodeUnit) :
      Const.codev cu ∈ c.co_consts → Reachable cu u → Reachable c u

/-- Multiplicity of a unit among the keys of a traversal result map. -/
def countKey {α : Type} (memo : List (CodeUnit × α)) (u : CodeUnit) : Nat :=
  List.count u (keys memo)

/-! ### Call sites

A well-formed call site, as the spec describes it: a root name load, an
attribute chain, constant-argument loads and an invocation, each with its own
extension chain. -/

structure CallSite where
  root : Chain
  attrs : List Chain
  argChains : List Chain
  invoke : Chain

/-- The instruction stream of the call site. -/
def CallSite.encode (s : CallSite) : List Nat :=
  s.root.encode ++ (s.attrs.map Chain.encode).flatten ++
    (s.argChains.map Chain.encode).flatten ++ s.invoke.encode

/-- Out-of-range table index decoded by some group of a match. -/
def badIndex (code : CodeUnit) (g : Groups) : Prop :=
  code.co_names.length ≤ extended_arguments g.g1 ∨
  (∃ i ∈ parse_loads g.g2, code.co_names.length ≤ i) ∨
  (∃ i ∈ parse_loads g.g3, code.co_consts.length ≤ i)

/-! ### The opcode table and `_instruction_to_regex`

`dis.opname` is the list of known instruction names (indexed by byte,
with placeholder entries), `dis.opmap` the mnemonic-to-byte dict; both come
from the hosting runtime and are modelled as an explicit table. -/

structure OpTable where
  opname : List String
  opmap : List (String × Nat)

/-- Translation of `_instruction_to_regex` (bytecode.py lines 29–38).  The
source returns `re.escape(bytes([dis.opmap[x]]))`, i.e. the (escaped) opcode
byte, and raises `KeyError` when `x` is missing from `dis.opmap`; the model
returns the byte or an error. -/
def _instruction_to_regex (T : OpTable) (x : String) : Except Unit Nat :=
  let x' := if x ∉ T.opname then
      (if x = "LOAD_METHOD" then "LOAD_ATTR"
       else if x = "CALL_METHOD" then "CALL_FUNCTION" else x)
    else x
  match T.opmap.lookup x' with
  | some b => .ok b
  | none => .error ()

/-- The backtick substitution of `bytecode_regex` (bytecode.py lines 41–63)
restricted to what it does with mnemonics: each backtick-quoted name in the
pattern source is replaced through `_instruction_to_regex`, and a failure on
any mnemonic aborts the compilation of the pattern. -/
def resolveMnemonics (T : OpTable) : List String → Except Unit (List Nat)
  | [] => .ok []
  | x :: xs =>
    match _instruction_to_regex T x with
    | .error e => .error e
    | .ok b =>
      match resolveMnemonics T xs with
      | .error e => .error e
      | .ok bs => .ok (b :: bs)

/-! ### Stepping equations for the worker functions -/

theorem matchChainsIn_none {S bs : List Nat} (h : matchChainIn S bs = none) :
    matchChainsIn S bs = ([], bs) := by
  rw [matchChainsIn]
  split
  · next m r hm => rw [h] at hm; cases hm
  · rfl

theorem matchChainsIn_some {S bs m r ms r2 : List Nat}
    (h : matchChainIn S bs = some (m, r)) (h2 : matchChainsIn S r = (ms, r2)) :
    matchChainsIn S bs = (m ++ ms, r2) := by
  rw [matchChainsIn]
  split
  · next m' r' hm =>
    rw [h] at hm
    cases hm
    rw [h2]
  · next hm => rw [h] at hm; cases hm

theorem finditerCall_nil : finditerCall [] = [] := by
  rw [finditerCall]

theorem finditerCall_cons_some {bs r : List Nat} {g : Groups}
    (hbs : bs ≠ []) (h : matchCallAt bs = some (g, r)) :
    finditerCall bs = g :: finditerCall r := by
  cases bs with
  | nil => exact absurd rfl hbs
  | cons a rest =>
    rw [finditerCall]
    split
    · next g' r' hm => rw [h] at hm; cases hm; rfl
    · next hm => rw [h] at hm; cases hm

theorem finditerCall_cons_none {a : Nat} {rest : List Nat}
    (h : matchCallAt (a :: rest) = none) :
    finditerCall (a :: rest) = finditerCall rest := by
  rw [finditerCall]
  split
  · next g' r' hm => rw [h] at hm; cases hm
  · rfl

/-! ### Matching an encoded call site -/

theorem matchChainIn_encode (S : List Nat) (c : Chain) (rest : List Nat)
    (hop : c.opcode ∈ S) (hne : c.opcode ≠ EXTENDED_ARG) :
    matchChainIn S (c.encode ++ rest) = some (c.encode, rest) := by
  obtain ⟨exts, op, arg⟩ := c
  induction exts with
  | nil => simp [Chain.encode, matchChainIn, hne, hop]
  | cons e es ih =>
    simp only [Chain.encode, List.map_cons, List.flatten_cons, List.cons_append,
      List.append_assoc, List.nil_append] at *
    rw [matchChainIn, if_pos rfl, ih hop hne]

theorem matchChainIn_encode_none (S : List Nat) (c : Chain) (rest : List Nat)
    (hop : c.opcode ∉ S) (hne : c.opcode ≠ EXTENDED_ARG)
    (hS : EXTENDED_ARG ∉ S) :
    matchChainIn S (c.encode ++ rest) = none := by
  obtain ⟨exts, op, arg⟩ := c
  induction exts with
  | nil =>
    simp only [Chain.encode, List.map_nil, List.flatten_nil, List.nil_append,
      List.cons_append] at *
    rw [matchChainIn, if_neg hne, if_neg hop]
  | cons e es ih =>
    simp only [Chain.encode, List.map_cons, List.flatten_cons, List.cons_append,
      List.append_assoc, List.nil_append] at *
    rw [matchChainIn, if_pos rfl, ih hop hne]
    simp [hS]

theorem matchChainsIn_flatten (S : List Nat) (chains : List Chain)
    (rest : List Nat) (hops : ∀ c ∈ chains, c.opcode ∈ S ∧ c.opcode ≠ EXTENDED_ARG)
    (hrest : matchChainIn S rest = none) :
    matchChainsIn S ((chains.map Chain.encode).flatten ++ rest) =
      ((chains.map Chain.encode).flatten, rest) := by
  induction chains with
  | nil =>
    simpa using matchChainsIn_none hrest
  | cons c cs ih =>
    obtain ⟨hop, hne⟩ := hops c (by simp)
    have h1 : matchChainIn S (c.encode ++ ((cs.map Chain.encode).flatten ++ rest)) =
        some (c.encode, (cs.map Chain.encode).flatten ++ rest) :=
      matchChainIn_encode S c _ hop hne
    have h2 := ih (fun d hd => hops d (by simp [hd]))
    simp only [List.map_cons, List.flatten_cons, List.append_assoc]
    exact matchChainsIn_some h1 h2

/-- The nonemptiness of a chain encoding (needed to step `finditerCall`). -/
theorem Chain.encode_ne_nil (c : Chain) : c.encode ≠ [] := by
  obtain ⟨exts, op, arg⟩ := c
  cases exts <;> simp [Chain.encode]

theorem ne_of_mem_of_not_mem {x y : Nat} {S : List Nat}
    (hx : x ∈ S) (hy : y ∉ S) : x ≠ y :=
  fun he => hy (he ▸ hx)

theorem not_mem_of_mem_disjoint {x : Nat} {S T : List Nat}
    (hx : x ∈ S) (hd : ∀ y ∈ S, y ∉ T) : x ∉ T :=
  hd x hx

theorem matchCallAt_encode (s : CallSite)
    (hroot : s.root.opcode ∈ NAME_OPS)
    (hattrs : ∀ c ∈ s.attrs, c.opcode ∈ ATTR_OPS)
    (hargs : ∀ c ∈ s.argChains, c.opcode ∈ CONST_OPS)
    (hinv : s.invoke.opcode ∈ CALL_OPS) :
    matchCallAt s.encode =
      some (⟨s.root.encode, (s.attrs.map Chain.encode).flatten,
        (s.argChains.map Chain.encode).flatten, s.invoke.encode⟩, []) := by
  have hrootne : s.root.opcode ≠ EXTENDED_ARG :=
    ne_of_mem_of_not_mem hroot (by decide)
  have hattrsne : ∀ c ∈ s.attrs, c.opcode ∈ ATTR_OPS ∧ c.opcode ≠ EXTENDED_ARG :=
    fun c hc => ⟨hattrs c hc,
      ne_of_mem_of_not_mem (hattrs c hc) (by decide)⟩
  have hargsne : ∀ c ∈ s.argChains, c.opcode ∈ CONST_OPS ∧ c.opcode ≠ EXTENDED_ARG :=
    fun c hc => ⟨hargs c hc,
      ne_of_mem_of_not_mem (hargs c hc) (by decide)⟩
  have hinvne : s.invoke.opcode ≠ EXTENDED_ARG :=
    ne_of_mem_of_not_mem hinv (by decide)
  -- group 1
  have h1 : matchChainIn NAME_OPS
      (s.root.encode ++ ((s.attrs.map Chain.encode).flatten ++
        ((s.argChains.map Chain.encode).flatten ++ s.invoke.encode))) =
      some (s.root.encode, (s.attrs.map Chain.encode).flatten ++
        ((s.argChains.map Chain.encode).flatten ++ s.invoke.encode)) :=
    matchChainIn_encode NAME_OPS s.root _ hroot hrootne
  -- what group 2's star sees after the attribute chains
  have hafter2 : matchChainIn ATTR_OPS
      ((s.argChains.map Chain.encode).flatten ++ s.invoke.encode) = none := by
    cases hA : s.argChains with
    | nil =>
      have := matchChainIn_encode_none ATTR_OPS s.invoke []
        (not_mem_of_mem_disjoint hinv (by decide)) hinvne (by decide)
      simpa using this
    | cons c cs =>
      obtain ⟨hop, hne⟩ := hargsne c (by rw [hA]; simp)
      simpa [List.append_assoc] using
        matchChainIn_encode_none ATTR_OPS c
          ((cs.map Chain.encode).flatten ++ s.invoke.encode)
          (not_mem_of_mem_disjoint hop (by decide)) hne (by decide)
  have h2 : matchChainsIn ATTR_OPS
      ((s.attrs.map Chain.encode).flatten ++
        ((s.argChains.map Chain.encode).flatten ++ s.invoke.encode)) =
      ((s.attrs.map Chain.encode).flatten,
        (s.argChains.map Chain.encode).flatten ++ s.invoke.encode) :=
    matchChainsIn_flatten ATTR_OPS s.attrs _ hattrsne hafter2
  -- what group 3's star sees after the constant chains
  have hafter3 : matchChainIn CONST_OPS s.invoke.encode = none := by
    have := matchChainIn_encode_none CONST_OPS s.invoke []
      (not_mem_of_mem_disjoint hinv (by decide)) hinvne (by decide)
    simpa using this
  have h3 : matchChainsIn CONST_OPS
      ((s.argChains.map Chain.encode).flatten ++ s.invoke.encode) =
      ((s.argChains.map Chain.encode).flatten, s.invoke.encode) :=
    matchChainsIn_flatten CONST_OPS s.argChains _ hargsne hafter3
  -- group 4
  have h4 : matchChainIn CALL_OPS s.invoke.encode = some (s.invoke.encode, []) := by
    have := matchChainIn_encode CALL_OPS s.invoke [] hinv hinvne
    simpa using this
  rw [matchCallAt]
  rw [CallSite.encode, List.append_assoc, List.append_assoc]
  simp only [h1, h2, h3, h4]

theorem finditerCall_encode (s : CallSite)
    (hroot : s.root.opcode ∈ NAME_OPS)
    (hattrs : ∀ c ∈ s.attrs, c.opcode ∈ ATTR_OPS)
    (hargs : ∀ c ∈ s.argChains, c.opcode ∈ CONST_OPS)
    (hinv : s.invoke.opcode ∈ CALL_OPS) :
    finditerCall s.encode =
      [⟨s.root.encode, (s.attrs.map Chain.encode).flatten,
        (s.argChains.map Chain.encode).flatten, s.invoke.encode⟩] := by
  have hne : s.encode ≠ [] := by
    rw [CallSite.encode]
    intro h
    have h1 := (List.append_eq_nil.mp h).1
    have h2 := (List.append_eq_nil.mp h1).1
    have h3 := (List.append_eq_nil.mp h2).1
    exact s.root.encode_ne_nil h3
  rw [finditerCall_cons_some hne (matchCallAt_encode s hroot hattrs hargs hinv),
    finditerCall_nil]

/-! ### Table lookups -/

theorem get?_eq_some_getD {α : Type} (l : List α) (i : Nat) (d : α)
    (h : i < l.length) : l.get? i = some (l.getD i d) := by
  rw [List.getD_eq_getElem?_getD, List.get?_eq_getElem?, List.getElem?_eq_getElem h]
  rfl

theorem lookupNames_ok (code : CodeUnit) : ∀ (l : List Nat),
    (∀ i ∈ l, i < code.co_names.length) →
    lookupNames code l = .ok (l.map (fun i => code.co_names.getD i "")) := by
  intro l
  induction l with
  | nil => intro _; rfl
  | cons i is ih =>
    intro h
    rw [lookupNames, get?_eq_some_getD _ _ "" (h i (by simp)),
      ih (fun j hj => h j (by simp [hj]))]
    simp

theorem lookupConsts_ok (code : CodeUnit) : ∀ (l : List Nat),
    (∀ i ∈ l, i < code.co_consts.length) →
    lookupConsts code l = .ok (l.map (fun i => code.co_consts.getD i Const.nonev)) := by
  intro l
  induction l with
  | nil => intro _; rfl
  | cons i is ih =>
    intro h
    rw [lookupConsts, get?_eq_some_getD _ _ Const.nonev (h i (by simp)),
      ih (fun j hj => h j (by simp [hj]))]
    simp

theorem lookupConsts_length (code : CodeUnit) : ∀ (l : List Nat) (cs : List Const),
    lookupConsts code l = .ok cs → cs.length = l.length := by
  intro l
  induction l with
  | nil =>
    intro cs h
    rw [lookupConsts] at h
    cases h
    rfl
  | cons i is ih =>
    intro cs h
    rw [lookupConsts] at h
    cases hg : code.co_consts.get? i with
    | none =>
      simp only [hg] at h
      cases h
    | some c =>
      simp only [hg] at h
      cases hl : lookupConsts code is with
      | error e =>
        simp only [hl] at h
        cases h
      | ok cs' =>
        simp only [hl] at h
        cases h
        simp [ih cs' hl]

theorem lookupNames_error (code : CodeUnit) : ∀ (l : List Nat),
    (∃ i ∈ l, code.co_names.length ≤ i) → lookupNames code l = .error () := by
  intro l
  induction l with
  | nil => rintro ⟨i, hi, -⟩; cases hi
  | cons i is ih =>
    rintro ⟨j, hj, hlen⟩
    rw [lookupNames]
    rcases List.mem_cons.mp hj with h | h
    · subst h
      have hg : code.co_names.get? j = none := List.get?_eq_none.mpr hlen
      simp only [hg]
    · cases hg : code.co_names.get? i with
      | none => simp only [hg]
      | some n => simp only [hg, ih ⟨j, h, hlen⟩]

theorem lookupConsts_error (code : CodeUnit) : ∀ (l : List Nat),
    (∃ i ∈ l, code.co_consts.length ≤ i) → lookupConsts code l = .error () := by
  intro l
  induction l with
  | nil => rintro ⟨i, hi, -⟩; cases hi
  | cons i is ih =>
    rintro ⟨j, hj, hlen⟩
    rw [lookupConsts]
    rcases List.mem_cons.mp hj with h | h
    · subst h
      have hg : code.co_consts.get? j = none := List.get?_eq_none.mpr hlen
      simp only [hg]
    · cases hg : code.co_consts.get? i with
      | none => simp only [hg]
      | some c => simp only [hg, ih ⟨j, h, hlen⟩]

/-! ### Arena embedding of code-object graphs

The inductive `CodeUnit` denotes exactly the finite trees that `compile()`
can produce (constants tuples are immutable, so no cycle can be built
through sanctioned interfaces).  The C layer, however, permits forging a
code object whose constants tuple references the object itself.  To speak
about such object graphs, a second embedding represents a heap of code
objects as an arena: a list of nodes whose nested code constants are arena
indices.  Distinct indices are distinct objects, the same index is the same
object, and cycles are representable.  `search_recursively` over this
embedding is rendered as a big-step evaluation relation, because on a cyclic
graph the Python code does not return: a configuration has a result exactly
when a finite derivation exists. -/

inductive AConst where
  | aint : Int → AConst
  | astr : String → AConst
  | anone : AConst
  | acode : Nat → AConst
deriving DecidableEq, Repr

structure ANode where
  aco_code : List Nat
  aco_names : List String
  aco_consts : List AConst
deriving DecidableEq, Repr

/-- A heap of code objects; a code unit is an index into it. -/
abbrev Arena := List ANode

/-- Reading an index outside the arena never happens in the instances used
below; totalising with a blank node keeps the definitions executable. -/
def blankNode : ANode := ⟨[], [], []⟩

/-- Termination of CPython's `code_hash` on node `i`.  Hashing a code object
hashes its `co_consts` tuple, and tuple hashing hashes every element,
recursing into nested code objects — with no memoization and no
pointer-identity shortcut.  A hash computation reaches a result exactly when
this recursion admits a finite derivation; over a tree it always does, but a
constants tuple that references the object itself admits none.  Every `dict`
operation of `search_recursively` (`code not in _memo` and the assignment)
hashes its key first — CPython's `dict.__contains__` calls `PyObject_Hash`
unconditionally, even on an empty dict — so this is the gate every visit of
a unit must pass before the memo is even consulted. -/
inductive HashTerm (A : Arena) : Nat → Prop
  | mk (i : Nat) :
      (∀ j, AConst.acode j ∈ (A.getD i blankNode).aco_consts → HashTerm A j) →
      HashTerm A i

mutual

/-- CPython's `code_richcompare` between two nodes of the arena: the fields
compare equal, with nested code constants compared through
`PyObject_RichCompareBool`, whose pointer-identity fast path is the `refl`
constructor (the same arena index is the same object). -/
inductive StructEqA (A : Arena) : Nat → Nat → Prop
  | refl (i : Nat) : StructEqA A i i
  | mk (i j : Nat) :
      (A.getD i blankNode).aco_code = (A.getD j blankNode).aco_code →
      (A.getD i blankNode).aco_names = (A.getD j blankNode).aco_names →
      ConstsEqA A (A.getD i blankNode).aco_consts (A.getD j blankNode).aco_consts →
      StructEqA A i j

/-- Pointwise comparison of two constants tuples: non-code constants by
value, code constants through `StructEqA`. -/
inductive ConstsEqA (A : Arena) : List AConst → List AConst → Prop
  | nil : ConstsEqA A [] []
  | consCode (k l : Nat) (r1 r2 : List AConst) :
      StructEqA A k l → ConstsEqA A r1 r2 →
      ConstsEqA A (AConst.acode k :: r1) (AConst.acode l :: r2)
  | consVal (c : AConst) (r1 r2 : List AConst) :
      (∀ k, c ≠ AConst.acode k) →
      ConstsEqA A r1 r2 → ConstsEqA A (c :: r1) (c :: r2)

end

/-- Outcome of probing the memo dict for node `i`: some stored key compares
equal to it.  (Structurally equal keys hash equal, and a hash mismatch only
prunes comparisons, so once the probe's hash terminates this characterises
dict membership exactly; it is the structural keying established under
C5.) -/
def memKeysA {α : Type} (A : Arena) (i : Nat) (m : List (Nat × α)) : Prop :=
  ∃ p ∈ m, StructEqA A p.1 i

mutual

/-- Big-step evaluation of `search_recursively` (bytecode.py lines 151–161)
over an arena graph, with the same control flow as the tree-model
`search_recursively` above: the membership test hashes the key (hence the
`HashTerm` premise on both rules), a hit returns the memo unchanged, a miss
appends the unit's own entry first and then walks the constants left to
right.  `SearchEvalA f A i m r` holds exactly when the Python call on that
configuration returns the memo `r`; on a self-referential unit no derivation
exists, matching the divergence of the key's hash recursion. -/
inductive SearchEvalA {α : Type} (f : Nat → α) (A : Arena) :
    Nat → List (Nat × α) → List (Nat × α) → Prop
  | hit (i : Nat) (m : List (Nat × α)) :
      HashTerm A i → memKeysA A i m → SearchEvalA f A i m m
  | miss (i : Nat) (m mout : List (Nat × α)) :
      HashTerm A i → ¬ memKeysA A i m →
      ConstsEvalA f A (A.getD i blankNode).aco_consts (m ++ [(i, f i)]) mout →
      SearchEvalA f A i m mout

/-- The `for const in code.co_consts` loop of the arena evaluation. -/
inductive ConstsEvalA {α : Type} (f : Nat → α) (A : Arena) :
    List AConst → List (Nat × α) → List (Nat × α) → Prop
  | nil (m : List (Nat × α)) : ConstsEvalA f A [] m m
  | consCode (j : Nat) (rest : List AConst) (m m1 mout : List (Nat × α)) :
      SearchEvalA f A j m m1 → ConstsEvalA f A rest m1 mout →
      ConstsEvalA f A (AConst.acode j :: rest) m mout
  | consVal (c : AConst) (rest : List AConst) (m mout : List (Nat × α)) :
      (∀ k, c ≠ AConst.acode k) →
      ConstsEvalA f A rest m mout → ConstsEvalA f A (c :: rest) m mout

end

/-! ## Claims -/

/-- C3: for every extension chain of `k` extension pairs (`k ≤ 4`) followed by
one terminal pair, `extended_arguments` returns the unsigned integer whose
big-endian byte representation is the concatenation of the bytes at odd
offsets (extension operands in order, terminal operand last); with no
extension instructions the result is the terminal operand byte itself. -/
theorem claim_C3 (c : Chain) (hk : c.exts.length ≤ 4) :
    extended_arguments c.encode = from_bytes_be (c.exts ++ [c.arg]) ∧
    extended_arguments c.encode = Nat.ofDigits 256 (c.exts ++ [c.arg]).reverse ∧
    (c.exts = [] → extended_arguments c.encode = c.arg) := by
  refine ⟨extended_arguments_encode c, ?_, ?_⟩
  · rw [extended_arguments_encode]
    exact from_bytes_be_eq_ofDigits _
  · intro h
    rw [extended_arguments_encode]
    simp [Chain.value, h, from_bytes_be]

/-- C3 witness: extension bytes `[0x01, 0x02]` and terminal operand byte
`0x03` decode to `0x010203 = 66051`. -/
theorem claim_C3_witness :
    extended_arguments (Chain.encode ⟨[1, 2], 100, 3⟩) = 66051 := by
  have h := (claim_C3 ⟨[1, 2], 100, 3⟩ (by decide)).1
  rw [h]
  decide

/-- C10: `extended_arguments` depends only on the bytes at odd offsets of its
input — two equal-length inputs that agree at every odd offset decode to the
same integer — and it returns `0` on the empty byte string. -/
theorem claim_C10 :
    (∀ bs cs : List Nat, bs.length = cs.length →
      (∀ i, i < bs.length → i % 2 = 1 → bs.getD i 0 = cs.getD i 0) →
      extended_arguments bs = extended_arguments cs) ∧
    extended_arguments [] = 0 := by
  constructor
  · intro bs cs h1 h2
    unfold extended_arguments
    rw [everySecond_congr bs cs h1 h2]
  · rfl

/-- C10 witness: two streams differing only at even (opcode) offsets decode
identically. -/
theorem claim_C10_witness :
    extended_arguments [7, 1, 9, 2] = extended_arguments [200, 1, 77, 2] :=
  claim_C10.1 [7, 1, 9, 2] [200, 1, 77, 2] (by decide) (by decide)

/-- C4: on a byte span that is a back-to-back concatenation of independent
extension chains, `parse_loads` yields exactly one decoded integer per chain,
each chain decoded independently by `extended_arguments`, in left-to-right
stream order. -/
theorem claim_C4 (chains : List Chain)
    (h : ∀ c ∈ chains, c.opcode ≠ EXTENDED_ARG) :
    parse_loads ((chains.map Chain.encode).flatten) =
      chains.map (fun c => extended_arguments c.encode) := by
  rw [parse_loads_flatten chains h]
  simp [extended_arguments_encode]

/-- C4 witness: two concrete chains decoded in order. -/
theorem claim_C4_witness :
    parse_loads ((([⟨[1], 100, 2⟩, ⟨[], 106, 7⟩] : List Chain).map
        Chain.encode).flatten) =
      ([⟨[1], 100, 2⟩, ⟨[], 106, 7⟩] : List Chain).map
        (fun c => extended_arguments c.encode) :=
  claim_C4 [⟨[1], 100, 2⟩, ⟨[], 106, 7⟩] (by decide)

theorem lookup_mem {α β : Type} [BEq α] [LawfulBEq α] :
    ∀ (l : List (α × β)) (k : α) (v : β), l.lookup k = some v → (k, v) ∈ l
  | [], k, v => by simp [List.lookup]
  | (k', v') :: es, k, v => by
    intro h
    rw [List.lookup] at h
    cases hk : k == k' with
    | true =>
      simp only [hk] at h
      injection h with hv
      subst hv
      have hke : k = k' := eq_of_beq hk
      subst hke
      exact List.mem_cons_self _ _
    | false =>
      simp only [hk] at h
      exact List.mem_cons_of_mem _ (lookup_mem es k v h)

/-- C8: a backtick-quoted mnemonic absent from the opcode table and distinct
from the two aliasable mnemonics makes pattern compilation fail at compile
time; the two aliasable mnemonics are substituted by their alias's byte and
compilation succeeds.  (The well-formedness hypothesis states that every
`dis.opmap` key appears in `dis.opname`, which holds of the `dis` module by
construction.) -/
theorem claim_C8 (T : OpTable) :
    (∀ x : String, x ∉ T.opname → (∀ p ∈ T.opmap, p.1 ∈ T.opname) →
      x ≠ "LOAD_METHOD" → x ≠ "CALL_METHOD" →
      _instruction_to_regex T x = .error () ∧
      resolveMnemonics T [x] = .error ()) ∧
    (∀ b : Nat, "LOAD_METHOD" ∉ T.opname →
      T.opmap.lookup "LOAD_ATTR" = some b →
      _instruction_to_regex T "LOAD_METHOD" = .ok b) ∧
    (∀ b : Nat, "CALL_METHOD" ∉ T.opname →
      T.opmap.lookup "CALL_FUNCTION" = some b →
      _instruction_to_regex T "CALL_METHOD" = .ok b) := by
  refine ⟨?_, ?_, ?_⟩
  · intro x hx hwf hlm hcm
    have hlook : T.opmap.lookup x = none := by
      cases hl : T.opmap.lookup x with
      | none => rfl
      | some b =>
        exact absurd (hwf _ (lookup_mem T.opmap x b hl)) hx
    constructor
    · rw [_instruction_to_regex]
      simp [hx, hlm, hcm, hlook]
    · rw [resolveMnemonics, _instruction_to_regex]
      simp [hx, hlm, hcm, hlook]
  · intro b hlm hlook
    rw [_instruction_to_regex]
    simp [hlm, hlook]
  · intro b hcm hlook
    rw [_instruction_to_regex]
    simp [hcm, hlook]

/-- C8 witness: a pre-3.7-style table (no `LOAD_METHOD`/`CALL_METHOD`): an
unknown mnemonic fails compilation, the two aliasable mnemonics resolve to
their alias's byte. -/
theorem claim_C8_witness :
    _instruction_to_regex
        ⟨["LOAD_ATTR", "CALL_FUNCTION"],
          [("LOAD_ATTR", 106), ("CALL_FUNCTION", 131)]⟩ "IMAGINARY_OP" =
      .error () ∧
    _instruction_to_regex
        ⟨["LOAD_ATTR", "CALL_FUNCTION"],
          [("LOAD_ATTR", 106), ("CALL_FUNCTION", 131)]⟩ "LOAD_METHOD" =
      .ok 106 ∧
    _instruction_to_regex
        ⟨["LOAD_ATTR", "CALL_FUNCTION"],
          [("LOAD_ATTR", 106), ("CALL_FUNCTION", 131)]⟩ "CALL_METHOD" =
      .ok 131 := by
  refine ⟨((claim_C8 _).1 "IMAGINARY_OP" (by decide) (by decide) (by decide)
    (by decide)).1, ?_, ?_⟩
  · exact (claim_C8 _).2.1 106 (by decide) (by decide)
  · exact (claim_C8 _).2.2 131 (by decide) (by decide)

/-- C1: a code unit whose instruction stream encodes one call site — a root
name load of symbol index `r`, attribute/method loads of symbol indices
`a1..ak`, `n` constant loads, and an invoke whose decoded operand equals `n`
(each operand with its own extension chain) — produces exactly one fact: the
dotted name `symbols[r].symbols[a1]…symbols[ak]` with arguments
`[constants[c1], …, constants[cn]]` in order. -/
theorem claim_C1 (s : CallSite) (names : List String) (consts : List Const)
    (hroot : s.root.opcode ∈ NAME_OPS)
    (hattrs : ∀ c ∈ s.attrs, c.opcode ∈ ATTR_OPS)
    (hargs : ∀ c ∈ s.argChains, c.opcode ∈ CONST_OPS)
    (hinv : s.invoke.opcode ∈ CALL_OPS)
    (hcount : s.invoke.value = s.argChains.length)
    (hrootrange : s.root.value < names.length)
    (hattrrange : ∀ c ∈ s.attrs, c.value < names.length)
    (hargrange : ∀ c ∈ s.argChains, c.value < consts.length) :
    function_calls (CodeUnit.mk s.encode names consts) =
      .ok [(String.intercalate "." (names.getD s.root.value "" ::
          s.attrs.map (fun c => names.getD c.value "")),
        s.argChains.map (fun c => consts.getD c.value Const.nonev))] := by
  have hcode : (CodeUnit.mk s.encode names consts).co_code = s.encode := rfl
  have hnm : (CodeUnit.mk s.encode names consts).co_names = names := rfl
  have hcn : (CodeUnit.mk s.encode names consts).co_consts = consts := rfl
  have e2 : parse_loads ((s.attrs.map Chain.encode).flatten) =
      s.attrs.map Chain.value :=
    parse_loads_flatten s.attrs
      (fun c hc => ne_of_mem_of_not_mem (hattrs c hc) (by decide))
  have e3 : parse_loads ((s.argChains.map Chain.encode).flatten) =
      s.argChains.map Chain.value :=
    parse_loads_flatten s.argChains
      (fun c hc => ne_of_mem_of_not_mem (hargs c hc) (by decide))
  have l1 : names.get? s.root.value = some (names.getD s.root.value "") :=
    get?_eq_some_getD names _ "" hrootrange
  have l2 : lookupNames (CodeUnit.mk s.encode names consts)
      (s.attrs.map Chain.value) =
      .ok ((s.attrs.map Chain.value).map (fun i => names.getD i "")) := by
    apply lookupNames_ok
    intro i hi
    obtain ⟨c, hc, rfl⟩ := List.mem_map.mp hi
    exact hattrrange c hc
  have l3 : lookupConsts (CodeUnit.mk s.encode names consts)
      (s.argChains.map Chain.value) =
      .ok ((s.argChains.map Chain.value).map
        (fun i => consts.getD i Const.nonev)) := by
    apply lookupConsts_ok
    intro i hi
    obtain ⟨c, hc, rfl⟩ := List.mem_map.mp hi
    exact hargrange c hc
  have hp : processMatch (CodeUnit.mk s.encode names consts)
      ⟨s.root.encode, (s.attrs.map Chain.encode).flatten,
        (s.argChains.map Chain.encode).flatten, s.invoke.encode⟩ =
      .ok (some (String.intercalate "." (names.getD s.root.value "" ::
          s.attrs.map (fun c => names.getD c.value "")),
        s.argChains.map (fun c => consts.getD c.value Const.nonev))) := by
    rw [processMatch]
    dsimp only
    rw [extended_arguments_encode, hnm, l1, e2, l2, e3, l3,
      extended_arguments_encode]
    simp only [List.map_map]
    rw [if_neg ?_]
    · simp [Function.comp_def]
    · simp [hcount]
  rw [function_calls, hcode, finditerCall_encode s hroot hattrs hargs hinv]
  rw [function_calls_go, hp]
  simp [function_calls_go]

/-- C1 witness: the two concrete examples.  `foo(1, 2, 3)` over
`symbols = ["foo"]`, `constants = [1, 2, 3]` (root load of index 0, constant
loads of indices 0, 1, 2, invoke with argument count 3) yields exactly
`("foo", [1, 2, 3])`; `foo.bar.baz("x")` with an attribute chain of length 2
yields dotted name `"foo.bar.baz"`. -/
theorem claim_C1_witness :
    function_calls (CodeUnit.mk
        (CallSite.encode ⟨⟨[], 101, 0⟩, [],
          [⟨[], 100, 0⟩, ⟨[], 100, 1⟩, ⟨[], 100, 2⟩], ⟨[], 131, 3⟩⟩)
        ["foo"] [.intv 1, .intv 2, .intv 3]) =
      .ok [("foo", [.intv 1, .intv 2, .intv 3])] ∧
    function_calls (CodeUnit.mk
        (CallSite.encode ⟨⟨[], 101, 0⟩, [⟨[], 106, 1⟩, ⟨[], 106, 2⟩],
          [⟨[], 100, 0⟩], ⟨[], 131, 1⟩⟩)
        ["foo", "bar", "baz"] [.strv "x"]) =
      .ok [("foo.bar.baz", [.strv "x"])] := by
  constructor
  · have h := claim_C1 ⟨⟨[], 101, 0⟩, [],
        [⟨[], 100, 0⟩, ⟨[], 100, 1⟩, ⟨[], 100, 2⟩], ⟨[], 131, 3⟩⟩
      ["foo"] [.intv 1, .intv 2, .intv 3]
      (by decide) (by decide) (by decide) (by decide) (by decide) (by decide)
      (by decide) (by decide)
    exact h
  · have h := claim_C1 ⟨⟨[], 101, 0⟩, [⟨[], 106, 1⟩, ⟨[], 106, 2⟩],
        [⟨[], 100, 0⟩], ⟨[], 131, 1⟩⟩
      ["foo", "bar", "baz"] [.strv "x"]
      (by decide) (by decide) (by decide) (by decide) (by decide) (by decide)
      (by decide) (by decide)
    exact h

theorem function_calls_go_ok (code : CodeUnit) : ∀ (gs : List Groups) (out : List Fact),
    (∀ g ∈ gs, processMatch code g ≠ .error ()) →
    function_calls_go code gs out = .ok (out ++ gs.filterMap (siteFact code)) := by
  intro gs
  induction gs with
  | nil => intro out _; simp [function_calls_go]
  | cons g gs ih =>
    intro out h
    rw [function_calls_go]
    cases hp : processMatch code g with
    | error e =>
      cases e
      exact absurd hp (h g (by simp))
    | ok o =>
      cases o with
      | none =>
        simp only [hp]
        rw [ih out (fun g' hg' => h g' (by simp [hg']))]
        simp [List.filterMap_cons, siteFact, hp]
      | some f =>
        simp only [hp]
        rw [ih (out ++ [f]) (fun g' hg' => h g' (by simp [hg']))]
        simp [List.filterMap_cons, siteFact, hp]

/-- C2: a matched call site whose decoded invocation argument count differs
from the number of decoded constant-load operands yields no fact at all (the
site's contribution is `none`), while the unit's output consists exactly of
the per-site contributions of all matches in order (so other sites are
reported normally). -/
theorem claim_C2 (code : CodeUnit)
    (h : ∀ g ∈ finditerCall code.co_code, processMatch code g ≠ .error ()) :
    function_calls code =
      .ok ((finditerCall code.co_code).filterMap (siteFact code)) ∧
    (∀ g ∈ finditerCall code.co_code,
      extended_arguments g.g4 ≠ (parse_loads g.g3).length →
      siteFact code g = none) := by
  constructor
  · rw [function_calls, function_calls_go_ok code _ [] h]
    simp
  · intro g _ hne
    have hsplit : processMatch code g = .ok none ∨
        processMatch code g = .error () := by
      rw [processMatch]
      cases hr : code.co_names.get? (extended_arguments g.g1) with
      | none => exact Or.inr rfl
      | some n =>
        cases hm : lookupNames code (parse_loads g.g2) with
        | error e => cases e; exact Or.inr rfl
        | ok ms =>
          cases hc : lookupConsts code (parse_loads g.g3) with
          | error e => cases e; exact Or.inr rfl
          | ok args =>
            left
            have hlen : args.length = (parse_loads g.g3).length :=
              lookupConsts_length code _ _ hc
            dsimp only
            rw [if_pos (by rw [hlen]; exact hne)]
    rcases hsplit with h' | h' <;> simp [siteFact, h']

/-- C2 witness: a unit with a good site `foo(5)` followed by a site whose
invoke operand (2) disagrees with its constant-load count (0): only the good
site's fact is emitted, and the mismatched site contributes nothing. -/
theorem claim_C2_witness :
    function_calls (CodeUnit.mk [101, 0, 100, 0, 131, 1, 101, 1, 131, 2]
        ["foo", "bar"] [.intv 5]) =
      .ok [("foo", [Const.intv 5])] ∧
    siteFact (CodeUnit.mk [101, 0, 100, 0, 131, 1, 101, 1, 131, 2]
        ["foo", "bar"] [.intv 5]) ⟨[101, 1], [], [], [131, 2]⟩ = none := by
  have m1 : matchCallAt [101, 0, 100, 0, 131, 1, 101, 1, 131, 2] =
      some (⟨[101, 0], [], [100, 0], [131, 1]⟩, [101, 1, 131, 2]) := by
    have s1 : matchChainIn NAME_OPS [101, 0, 100, 0, 131, 1, 101, 1, 131, 2] =
        some ([101, 0], [100, 0, 131, 1, 101, 1, 131, 2]) := by decide
    have s2 : matchChainsIn ATTR_OPS [100, 0, 131, 1, 101, 1, 131, 2] =
        ([], [100, 0, 131, 1, 101, 1, 131, 2]) :=
      matchChainsIn_none (by decide)
    have s3 : matchChainsIn CONST_OPS [100, 0, 131, 1, 101, 1, 131, 2] =
        ([100, 0], [131, 1, 101, 1, 131, 2]) :=
      matchChainsIn_some
        (show matchChainIn CONST_OPS [100, 0, 131, 1, 101, 1, 131, 2] =
          some ([100, 0], [131, 1, 101, 1, 131, 2]) by decide)
        (matchChainsIn_none (by decide))
    have s4 : matchChainIn CALL_OPS [131, 1, 101, 1, 131, 2] =
        some ([131, 1], [101, 1, 131, 2]) := by decide
    rw [matchCallAt, s1]
    dsimp only
    rw [s2]
    dsimp only
    rw [s3]
    dsimp only
    rw [s4]
  have m2 : matchCallAt [101, 1, 131, 2] =
      some (⟨[101, 1], [], [], [131, 2]⟩, []) := by
    have s1 : matchChainIn NAME_OPS [101, 1, 131, 2] =
        some ([101, 1], [131, 2]) := by decide
    have s2 : matchChainsIn ATTR_OPS [131, 2] = ([], [131, 2]) :=
      matchChainsIn_none (by decide)
    have s3 : matchChainsIn CONST_OPS [131, 2] = ([], [131, 2]) :=
      matchChainsIn_none (by decide)
    have s4 : matchChainIn CALL_OPS [131, 2] = some ([131, 2], []) := by decide
    rw [matchCallAt, s1]
    dsimp only
    rw [s2]
    dsimp only
    rw [s3]
    dsimp only
    rw [s4]
  have hfind : finditerCall [101, 0, 100, 0, 131, 1, 101, 1, 131, 2] =
      [⟨[101, 0], [], [100, 0], [131, 1]⟩, ⟨[101, 1], [], [], [131, 2]⟩] := by
    rw [finditerCall_cons_some (by simp) m1,
      finditerCall_cons_some (by simp) m2, finditerCall_nil]
  have pl0 : parse_loads ([] : List Nat) = [] := by
    rw [parse_loads, findallEA_nil]
    rfl
  have pl1 : parse_loads [100, 0] = [0] := by
    rw [parse_loads,
      findallEA_eq_cons (by decide : matchEA [100, 0] = some ([100, 0], [])),
      findallEA_nil]
    rfl
  have pA : processMatch (CodeUnit.mk [101, 0, 100, 0, 131, 1, 101, 1, 131, 2]
      ["foo", "bar"] [.intv 5]) ⟨[101, 0], [], [100, 0], [131, 1]⟩ =
      .ok (some ("foo", [Const.intv 5])) := by
    rw [processMatch]
    dsimp only
    rw [pl0, pl1]
    rfl
  have pB : processMatch (CodeUnit.mk [101, 0, 100, 0, 131, 1, 101, 1, 131, 2]
      ["foo", "bar"] [.intv 5]) ⟨[101, 1], [], [], [131, 2]⟩ =
      .ok none := by
    rw [processMatch]
    dsimp only
    rw [pl0]
    rfl
  have h : ∀ g ∈ finditerCall (CodeUnit.co_code
      (CodeUnit.mk [101, 0, 100, 0, 131, 1, 101, 1, 131, 2]
        ["foo", "bar"] [.intv 5])),
      processMatch (CodeUnit.mk [101, 0, 100, 0, 131, 1, 101, 1, 131, 2]
        ["foo", "bar"] [.intv 5]) g ≠ .error () := by
    intro g hg
    rw [show CodeUnit.co_code (CodeUnit.mk
        [101, 0, 100, 0, 131, 1, 101, 1, 131, 2] ["foo", "bar"] [.intv 5]) =
      [101, 0, 100, 0, 131, 1, 101, 1, 131, 2] from rfl, hfind] at hg
    rcases List.mem_cons.mp hg with h' | h'
    · rw [h', pA]; simp
    · rw [List.mem_singleton.mp h', pB]; simp
  have hmain := claim_C2 (CodeUnit.mk [101, 0, 100, 0, 131, 1, 101, 1, 131, 2]
    ["foo", "bar"] [.intv 5]) h
  constructor
  · rw [hmain.1]
    rw [show CodeUnit.co_code (CodeUnit.mk
        [101, 0, 100, 0, 131, 1, 101, 1, 131, 2] ["foo", "bar"] [.intv 5]) =
      [101, 0, 100, 0, 131, 1, 101, 1, 131, 2] from rfl, hfind]
    simp [List.filterMap_cons, siteFact, pA, pB]
  · apply hmain.2 ⟨[101, 1], [], [], [131, 2]⟩
    · rw [show CodeUnit.co_code (CodeUnit.mk
          [101, 0, 100, 0, 131, 1, 101, 1, 131, 2] ["foo", "bar"] [.intv 5]) =
        [101, 0, 100, 0, 131, 1, 101, 1, 131, 2] from rfl, hfind]
      simp
    · rw [pl0]
      decide

theorem function_calls_go_error (code : CodeUnit) : ∀ (gs : List Groups) (out : List Fact),
    (∃ g ∈ gs, processMatch code g = .error ()) →
    function_calls_go code gs out = .error () := by
  intro gs
  induction gs with
  | nil => rintro out ⟨g, hg, -⟩; cases hg
  | cons g gs ih =>
    rintro out ⟨g', hg', hp⟩
    rw [function_calls_go]
    rcases List.mem_cons.mp hg' with h | h
    · subst h
      simp only [hp]
    · cases hq : processMatch code g with
      | error e => cases e; simp only [hq]
      | ok o =>
        cases o with
        | none =>
          simp only [hq]
          exact ih out ⟨g', h, hp⟩
        | some f =>
          simp only [hq]
          exact ih (out ++ [f]) ⟨g', h, hp⟩

theorem badIndex_processMatch (code : CodeUnit) (g : Groups)
    (hb : badIndex code g) : processMatch code g = .error () := by
  rw [processMatch]
  cases hr : code.co_names.get? (extended_arguments g.g1) with
  | none => simp only [hr]
  | some n =>
    cases hm : lookupNames code (parse_loads g.g2) with
    | error e => cases e; simp only [hr, hm]
    | ok ms =>
      cases hc : lookupConsts code (parse_loads g.g3) with
      | error e => cases e; simp only [hr, hm, hc]
      | ok args =>
        exfalso
        rcases hb with h1 | h2 | h3
        · rw [List.get?_eq_none.mpr h1] at hr
          cases hr
        · rw [lookupNames_error code _ h2] at hm
          cases hm
        · rw [lookupConsts_error code _ h3] at hc
          cases hc

theorem matchCallAt_badUnit : matchCallAt [101, 5, 131, 0] =
    some (⟨[101, 5], [], [], [131, 0]⟩, []) := by
  have s1 : matchChainIn NAME_OPS [101, 5, 131, 0] =
      some ([101, 5], [131, 0]) := by decide
  have s2 : matchChainsIn ATTR_OPS [131, 0] = ([], [131, 0]) :=
    matchChainsIn_none (by decide)
  have s3 : matchChainsIn CONST_OPS [131, 0] = ([], [131, 0]) :=
    matchChainsIn_none (by decide)
  have s4 : matchChainIn CALL_OPS [131, 0] = some ([131, 0], []) := by decide
  rw [matchCallAt, s1]
  dsimp only
  rw [s2]
  dsimp only
  rw [s3]
  dsimp only
  rw [s4]

theorem finditerCall_badUnit : finditerCall [101, 5, 131, 0] =
    [⟨[101, 5], [], [], [131, 0]⟩] := by
  rw [finditerCall_cons_some (by simp) matchCallAt_badUnit, finditerCall_nil]

/-- The scan of a unit whose root load decodes symbol index 5 against the
one-entry name table `["foo"]` raises. -/
theorem function_calls_badUnit :
    function_calls (CodeUnit.mk [101, 5, 131, 0] ["foo"] []) = .error () := by
  rw [function_calls,
    show CodeUnit.co_code (CodeUnit.mk [101, 5, 131, 0] ["foo"] []) =
      [101, 5, 131, 0] from rfl,
    finditerCall_badUnit, function_calls_go,
    show processMatch (CodeUnit.mk [101, 5, 131, 0] ["foo"] [])
      ⟨[101, 5], [], [], [131, 0]⟩ = .error () from rfl]

/-- C9: a matched site decoding an out-of-range `symbols`/`constants` index
makes `function_calls` raise (no fact list is produced for the unit, facts of
earlier matches included), the error is not caught by the traversal (an
erroring unit aborts `recursive_function_calls`), and a concrete unit graph
whose nested unit decodes symbol index 5 against a one-entry table aborts the
whole scan. -/
theorem claim_C9 :
    (∀ (code : CodeUnit) (g : Groups), g ∈ finditerCall code.co_code →
      badIndex code g → function_calls code = .error ()) ∧
    (∀ code : CodeUnit, function_calls code = .error () →
      recursive_function_calls code = .error ()) ∧
    recursive_function_calls (CodeUnit.mk [] []
      [Const.codev (CodeUnit.mk [101, 5, 131, 0] ["foo"] [])]) = .error () := by
  refine ⟨?_, ?_, ?_⟩
  · intro code g hg hb
    rw [function_calls]
    exact function_calls_go_error code _ []
      ⟨g, hg, badIndex_processMatch code g hb⟩
  · intro code h
    rw [recursive_function_calls, search_recursivelyE,
      if_neg (by simp [keys]), h]
  · have hfcR : function_calls (CodeUnit.mk [] []
        [Const.codev (CodeUnit.mk [101, 5, 131, 0] ["foo"] [])]) = .ok [] := by
      rw [function_calls,
        show CodeUnit.co_code (CodeUnit.mk [] []
          [Const.codev (CodeUnit.mk [101, 5, 131, 0] ["foo"] [])]) = []
          from rfl,
        finditerCall_nil, function_calls_go]
    rw [recursive_function_calls, search_recursivelyE,
      if_neg (by simp [keys]), hfcR]
    dsimp only
    rw [searchConstsE.eq_def]
    dsimp only [CodeUnit.co_consts, List.nil_append]
    rw [search_recursivelyE]
    rw [if_neg (by simp [keys])]
    rw [function_calls_badUnit]

/-- C9 witness: the bad unit itself raises and, scanned as the top of the
graph, aborts the recursive traversal. -/
theorem claim_C9_witness :
    function_calls (CodeUnit.mk [101, 5, 131, 0] ["foo"] []) = .error () ∧
    recursive_function_calls (CodeUnit.mk [101, 5, 131, 0] ["foo"] []) =
      .error () := by
  have h1 : function_calls (CodeUnit.mk [101, 5, 131, 0] ["foo"] []) =
      .error () :=
    claim_C9.1 (CodeUnit.mk [101, 5, 131, 0] ["foo"] [])
      ⟨[101, 5], [], [], [131, 0]⟩
      (by rw [show CodeUnit.co_code (CodeUnit.mk [101, 5, 131, 0] ["foo"] []) =
            [101, 5, 131, 0] from rfl, finditerCall_badUnit]
          exact List.mem_singleton.mpr rfl)
      (Or.inl (by decide))
  exact ⟨h1, claim_C9.2.1 _ h1⟩

/-! ### Properties of the traversal -/

theorem keys_append {α : Type} (m1 m2 : List (CodeUnit × α)) :
    keys (m1 ++ m2) = keys m1 ++ keys m2 := by
  simp [keys]

mutual

theorem search_recursively_append {α : Type} (f : CodeUnit → α)
    (code : CodeUnit) (memo : List (CodeUnit × α)) :
    ∃ ext, search_recursively f code memo = memo ++ ext := by
  rw [search_recursively]
  by_cases h : code ∈ keys memo
  · rw [if_pos h]
    exact ⟨[], by simp⟩
  · rw [if_neg h]
    obtain ⟨ext, hext⟩ :=
      searchConsts_append f code.co_consts (memo ++ [(code, f code)])
    exact ⟨[(code, f code)] ++ ext, by rw [hext, List.append_assoc]⟩
termination_by sizeOf code
decreasing_by
  exact sizeOf_co_consts_lt code

theorem searchConsts_append {α : Type} (f : CodeUnit → α)
    (cs : List Const) (memo : List (CodeUnit × α)) :
    ∃ ext, searchConsts f cs memo = memo ++ ext := by
  cases cs with
  | nil => exact ⟨[], by rw [searchConsts.eq_1, List.append_nil]⟩
  | cons c rest =>
    cases c with
    | codev cu =>
      obtain ⟨e1, h1⟩ := search_recursively_append f cu memo
      obtain ⟨e2, h2⟩ :=
        searchConsts_append f rest (search_recursively f cu memo)
      exact ⟨e1 ++ e2, by rw [searchConsts.eq_2, h2, h1, List.append_assoc]⟩
    | intv i =>
      obtain ⟨e, h⟩ := searchConsts_append f rest memo
      exact ⟨e, by
        rw [searchConsts.eq_3 f memo _ rest (fun cu hh => by cases hh)]
        exact h⟩
    | strv t =>
      obtain ⟨e, h⟩ := searchConsts_append f rest memo
      exact ⟨e, by
        rw [searchConsts.eq_3 f memo _ rest (fun cu hh => by cases hh)]
        exact h⟩
    | boolv b =>
      obtain ⟨e, h⟩ := searchConsts_append f rest memo
      exact ⟨e, by
        rw [searchConsts.eq_3 f memo _ rest (fun cu hh => by cases hh)]
        exact h⟩
    | nonev =>
      obtain ⟨e, h⟩ := searchConsts_append f rest memo
      exact ⟨e, by
        rw [searchConsts.eq_3 f memo _ rest (fun cu hh => by cases hh)]
        exact h⟩
termination_by sizeOf cs
decreasing_by
  all_goals simp only [List.cons.sizeOf_spec, Const.codev.sizeOf_spec,
    Const.intv.sizeOf_spec, Const.strv.sizeOf_spec, Const.boolv.sizeOf_spec,
    Const.nonev.sizeOf_spec]
  all_goals omega

end

theorem mem_keys_search_recursively {α : Type} (f : CodeUnit → α)
    (code : CodeUnit) (memo : List (CodeUnit × α)) {u : CodeUnit}
    (h : u ∈ keys memo) : u ∈ keys (search_recursively f code memo) := by
  obtain ⟨ext, hext⟩ := search_recursively_append f code memo
  rw [hext, keys_append]
  exact List.mem_append_left _ h

theorem mem_keys_searchConsts {α : Type} (f : CodeUnit → α)
    (cs : List Const) (memo : List (CodeUnit × α)) {u : CodeUnit}
    (h : u ∈ keys memo) : u ∈ keys (searchConsts f cs memo) := by
  obtain ⟨ext, hext⟩ := searchConsts_append f cs memo
  rw [hext, keys_append]
  exact List.mem_append_left _ h

mutual

theorem search_recursively_nodup {α : Type} (f : CodeUnit → α)
    (code : CodeUnit) (memo : List (CodeUnit × α))
    (h : (keys memo).Nodup) : (keys (search_recursively f code memo)).Nodup := by
  rw [search_recursively]
  by_cases hmem : code ∈ keys memo
  · rw [if_pos hmem]
    exact h
  · rw [if_neg hmem]
    apply searchConsts_nodup
    rw [keys_append]
    simp only [keys, List.map_cons, List.map_nil]
    exact List.Nodup.append h (List.nodup_singleton code)
      (List.disjoint_singleton.mpr hmem)
termination_by sizeOf code
decreasing_by
  exact sizeOf_co_consts_lt code

theorem searchConsts_nodup {α : Type} (f : CodeUnit → α)
    (cs : List Const) (memo : List (CodeUnit × α))
    (h : (keys memo).Nodup) : (keys (searchConsts f cs memo)).Nodup := by
  cases cs with
  | nil => rw [searchConsts.eq_1]; exact h
  | cons c rest =>
    cases c with
    | codev cu =>
      rw [searchConsts.eq_2]
      exact searchConsts_nodup f rest _ (search_recursively_nodup f cu memo h)
    | intv i =>
      rw [searchConsts.eq_3 f memo _ rest (fun cu hh => by cases hh)]
      exact searchConsts_nodup f rest memo h
    | strv t =>
      rw [searchConsts.eq_3 f memo _ rest (fun cu hh => by cases hh)]
      exact searchConsts_nodup f rest memo h
    | boolv b =>
      rw [searchConsts.eq_3 f memo _ rest (fun cu hh => by cases hh)]
      exact searchConsts_nodup f rest memo h
    | nonev =>
      rw [searchConsts.eq_3 f memo _ rest (fun cu hh => by cases hh)]
      exact searchConsts_nodup f rest memo h
termination_by sizeOf cs
decreasing_by
  all_goals simp only [List.cons.sizeOf_spec, Const.codev.sizeOf_spec]
  all_goals omega

end

mutual

theorem search_recursively_entries {α : Type} (f : CodeUnit → α)
    (code : CodeUnit) (memo : List (CodeUnit × α))
    (h : ∀ p ∈ memo, p.2 = f p.1) :
    ∀ p ∈ search_recursively f code memo, p.2 = f p.1 := by
  rw [search_recursively]
  by_cases hmem : code ∈ keys memo
  · rw [if_pos hmem]
    exact h
  · rw [if_neg hmem]
    apply searchConsts_entries
    intro p hp
    rcases List.mem_append.mp hp with hp | hp
    · exact h p hp
    · rw [List.mem_singleton.mp hp]
termination_by sizeOf code
decreasing_by
  exact sizeOf_co_consts_lt code

theorem searchConsts_entries {α : Type} (f : CodeUnit → α)
    (cs : List Const) (memo : List (CodeUnit × α))
    (h : ∀ p ∈ memo, p.2 = f p.1) :
    ∀ p ∈ searchConsts f cs memo, p.2 = f p.1 := by
  cases cs with
  | nil => rw [searchConsts.eq_1]; exact h
  | cons c rest =>
    cases c with
    | codev cu =>
      rw [searchConsts.eq_2]
      exact searchConsts_entries f rest _ (search_recursively_entries f cu memo h)
    | intv i =>
      rw [searchConsts.eq_3 f memo _ rest (fun cu hh => by cases hh)]
      exact searchConsts_entries f rest memo h
    | strv t =>
      rw [searchConsts.eq_3 f memo _ rest (fun cu hh => by cases hh)]
      exact searchConsts_entries f rest memo h
    | boolv b =>
      rw [searchConsts.eq_3 f memo _ rest (fun cu hh => by cases hh)]
      exact searchConsts_entries f rest memo h
    | nonev =>
      rw [searchConsts.eq_3 f memo _ rest (fun cu hh => by cases hh)]
      exact searchConsts_entries f rest memo h
termination_by sizeOf cs
decreasing_by
  all_goals simp only [List.cons.sizeOf_spec, Const.codev.sizeOf_spec]
  all_goals omega

end

/-- The invariant carried through the traversal: every key of the memo either
is an ancestor in the current call stack (whose subtree is still being
processed) or has all its reachable units among the keys already. -/
def Inv {α : Type} (memo : List (CodeUnit × α)) (anc : List CodeUnit) : Prop :=
  ∀ k ∈ keys memo, k ∈ anc ∨ ∀ u, Reachable k u → u ∈ keys memo

mutual

theorem search_recursively_complete {α : Type} (f : CodeUnit → α)
    (code : CodeUnit) (memo : List (CodeUnit × α)) (anc : List CodeUnit)
    (hinv : Inv memo anc) (hanc : ∀ a ∈ anc, sizeOf code < sizeOf a) :
    Inv (search_recursively f code memo) anc ∧
    (∀ u, Reachable code u → u ∈ keys (search_recursively f code memo)) := by
  rw [search_recursively]
  by_cases hmem : code ∈ keys memo
  · rw [if_pos hmem]
    refine ⟨hinv, ?_⟩
    intro u hru
    rcases hinv code hmem with ha | hcl
    · exact absurd (hanc code ha) (lt_irrefl _)
    · exact hcl u hru
  · rw [if_neg hmem]
    have hinv1 : Inv (memo ++ [(code, f code)]) (code :: anc) := by
      intro k hk
      rw [keys_append] at hk
      rcases List.mem_append.mp hk with hk | hk
      · rcases hinv k hk with ha | hcl
        · exact Or.inl (List.mem_cons_of_mem _ ha)
        · refine Or.inr fun u hru => ?_
          rw [keys_append]
          exact List.mem_append_left _ (hcl u hru)
      · have : k = code := by simpa [keys] using hk
        exact Or.inl (this ▸ List.mem_cons_self _ _)
    have hanc1 : ∀ a ∈ code :: anc, sizeOf code.co_consts < sizeOf a := by
      intro a ha
      rcases List.mem_cons.mp ha with ha | ha
      · rw [ha]
        exact sizeOf_co_consts_lt code
      · exact lt_trans (sizeOf_co_consts_lt code) (hanc a ha)
    obtain ⟨hinv2, hcov⟩ := searchConsts_complete f code.co_consts
      (memo ++ [(code, f code)]) (code :: anc) hinv1 hanc1
    have hcode_mem : code ∈ keys (searchConsts f code.co_consts
        (memo ++ [(code, f code)])) :=
      mem_keys_searchConsts f _ _ (by simp [keys_append, keys])
    have hreach : ∀ u, Reachable code u →
        u ∈ keys (searchConsts f code.co_consts (memo ++ [(code, f code)])) := by
      intro u hru
      cases hru with
      | refl => exact hcode_mem
      | step cu hcu hru' => exact hcov cu hcu u hru'
    refine ⟨?_, hreach⟩
    intro k hk
    rcases hinv2 k hk with ha | hcl
    · rcases List.mem_cons.mp ha with ha | ha
      · exact Or.inr (ha ▸ hreach)
      · exact Or.inl ha
    · exact Or.inr hcl
termination_by sizeOf code
decreasing_by
  exact sizeOf_co_consts_lt code

theorem searchConsts_complete {α : Type} (f : CodeUnit → α)
    (cs : List Const) (memo : List (CodeUnit × α)) (anc : List CodeUnit)
    (hinv : Inv memo anc) (hanc : ∀ a ∈ anc, sizeOf cs < sizeOf a) :
    Inv (searchConsts f cs memo) anc ∧
    (∀ cu, Const.codev cu ∈ cs → ∀ u, Reachable cu u →
      u ∈ keys (searchConsts f cs memo)) := by
  cases cs with
  | nil =>
    rw [searchConsts.eq_1]
    exact ⟨hinv, fun cu hcu => by cases hcu⟩
  | cons c rest =>
    cases c with
    | codev cu =>
      rw [searchConsts.eq_2]
      have hcu_sz : sizeOf cu < sizeOf (Const.codev cu :: rest) := by
        simp only [List.cons.sizeOf_spec, Const.codev.sizeOf_spec]
        omega
      have hrest_sz : sizeOf rest < sizeOf (Const.codev cu :: rest) := by
        simp only [List.cons.sizeOf_spec]
        omega
      obtain ⟨hinv1, hcov1⟩ := search_recursively_complete f cu memo anc hinv
        (fun a ha => lt_trans hcu_sz (hanc a ha))
      obtain ⟨hinv2, hcov2⟩ := searchConsts_complete f rest
        (search_recursively f cu memo) anc hinv1
        (fun a ha => lt_trans hrest_sz (hanc a ha))
      refine ⟨hinv2, ?_⟩
      intro cu' hcu' u hru
      rcases List.mem_cons.mp hcu' with heq | hm
      · injection heq with heq'
        exact mem_keys_searchConsts f rest _ (hcov1 u (heq' ▸ hru))
      · exact hcov2 cu' hm u hru
    | intv i =>
      rw [searchConsts.eq_3 f memo _ rest (fun cu hh => by cases hh)]
      obtain ⟨hinv1, hcov1⟩ := searchConsts_complete f rest memo anc hinv
        (fun a ha => lt_trans (by simp only [List.cons.sizeOf_spec]; omega)
          (hanc a ha))
      refine ⟨hinv1, ?_⟩
      intro cu' hcu' u hru
      rcases List.mem_cons.mp hcu' with heq | hm
      · cases heq
      · exact hcov1 cu' hm u hru
    | strv t =>
      rw [searchConsts.eq_3 f memo _ rest (fun cu hh => by cases hh)]
      obtain ⟨hinv1, hcov1⟩ := searchConsts_complete f rest memo anc hinv
        (fun a ha => lt_trans (by simp only [List.cons.sizeOf_spec]; omega)
          (hanc a ha))
      refine ⟨hinv1, ?_⟩
      intro cu' hcu' u hru
      rcases List.mem_cons.mp hcu' with heq | hm
      · cases heq
      · exact hcov1 cu' hm u hru
    | boolv b =>
      rw [searchConsts.eq_3 f memo _ rest (fun cu hh => by cases hh)]
      obtain ⟨hinv1, hcov1⟩ := searchConsts_complete f rest memo anc hinv
        (fun a ha => lt_trans (by simp only [List.cons.sizeOf_spec]; omega)
          (hanc a ha))
      refine ⟨hinv1, ?_⟩
      intro cu' hcu' u hru
      rcases List.mem_cons.mp hcu' with heq | hm
      · cases heq
      · exact hcov1 cu' hm u hru
    | nonev =>
      rw [searchConsts.eq_3 f memo _ rest (fun cu hh => by cases hh)]
      obtain ⟨hinv1, hcov1⟩ := searchConsts_complete f rest memo anc hinv
        (fun a ha => lt_trans (by simp only [List.cons.sizeOf_spec]; omega)
          (hanc a ha))
      refine ⟨hinv1, ?_⟩
      intro cu' hcu' u hru
      rcases List.mem_cons.mp hcu' with heq | hm
      · cases heq
      · exact hcov1 cu' hm u hru
termination_by sizeOf cs
decreasing_by
  all_goals subst_vars
  all_goals simp only [List.cons.sizeOf_spec, Const.codev.sizeOf_spec]
  all_goals omega

end

theorem countKey_eq_one {α : Type} {memo : List (CodeUnit × α)} {u : CodeUnit}
    (hn : (keys memo).Nodup) (hm : u ∈ keys memo) : countKey memo u = 1 := by
  rw [countKey]
  exact List.count_eq_one_of_mem hn hm

theorem searchConsts_no_code {α : Type} (f : CodeUnit → α) :
    ∀ (cs : List Const) (memo : List (CodeUnit × α)),
    (∀ cu : CodeUnit, Const.codev cu ∉ cs) → searchConsts f cs memo = memo
  | [], memo, _ => by rw [searchConsts.eq_1]
  | c :: rest, memo, h => by
    have hrest : ∀ cu : CodeUnit, Const.codev cu ∉ rest :=
      fun cu hc => h cu (List.mem_cons_of_mem _ hc)
    cases c with
    | codev cu => exact absurd (List.mem_cons_self _ _) (h cu)
    | intv i =>
      rw [searchConsts.eq_3 f memo _ rest (fun cu hh => by cases hh)]
      exact searchConsts_no_code f rest memo hrest
    | strv t =>
      rw [searchConsts.eq_3 f memo _ rest (fun cu hh => by cases hh)]
      exact searchConsts_no_code f rest memo hrest
    | boolv b =>
      rw [searchConsts.eq_3 f memo _ rest (fun cu hh => by cases hh)]
      exact searchConsts_no_code f rest memo hrest
    | nonev =>
      rw [searchConsts.eq_3 f memo _ rest (fun cu hh => by cases hh)]
      exact searchConsts_no_code f rest memo hrest

/-- The traversal of a parent holding two structurally identical child units:
the second occurrence hits the memo (`dict`) under code-object equality, so
the map has a single shared entry for both children. -/
theorem search_recursively_two_identical {α : Type} (f : CodeUnit → α)
    (bc : List Nat) (bn : List String) (L : CodeUnit)
    (hL : ∀ cu : CodeUnit, Const.codev cu ∉ L.co_consts) :
    search_recursively f (CodeUnit.mk bc bn [Const.codev L, Const.codev L]) [] =
      [(CodeUnit.mk bc bn [Const.codev L, Const.codev L],
        f (CodeUnit.mk bc bn [Const.codev L, Const.codev L])), (L, f L)] := by
  have hLP : L ≠ CodeUnit.mk bc bn [Const.codev L, Const.codev L] := by
    intro he
    apply hL L
    conv_lhs => rw [he]
    rw [show (CodeUnit.mk bc bn [Const.codev L, Const.codev L]).co_consts =
      [Const.codev L, Const.codev L] from rfl]
    exact List.mem_cons_self _ _
  rw [search_recursively, if_neg (by simp [keys])]
  rw [show (CodeUnit.mk bc bn [Const.codev L, Const.codev L]).co_consts =
    [Const.codev L, Const.codev L] from rfl]
  rw [List.nil_append, searchConsts.eq_2]
  rw [search_recursively, if_neg (by simp [keys]; exact hLP)]
  rw [searchConsts_no_code f L.co_consts _ hL]
  rw [searchConsts.eq_2]
  rw [search_recursively, if_pos (by simp [keys])]
  rw [searchConsts.eq_1]
  simp

/-- C5 counterexample: two structurally identical child objects of one parent
(the embedding of two distinct, structurally equal code objects): the result
map carries a single entry for them, not a separate entry per object. -/
theorem claim_C5_counterexample :
    search_recursively (fun _ => (0 : Nat))
      (CodeUnit.mk [] [] [Const.codev (CodeUnit.mk [] [] []),
        Const.codev (CodeUnit.mk [] [] [])]) [] =
      [(CodeUnit.mk [] [] [Const.codev (CodeUnit.mk [] [] []),
        Const.codev (CodeUnit.mk [] [] [])], 0), (CodeUnit.mk [] [] [], 0)] ∧
    countKey (search_recursively (fun _ => (0 : Nat))
      (CodeUnit.mk [] [] [Const.codev (CodeUnit.mk [] [] []),
        Const.codev (CodeUnit.mk [] [] [])]) []) (CodeUnit.mk [] [] []) = 1 ∧
    ¬ countKey (search_recursively (fun _ => (0 : Nat))
      (CodeUnit.mk [] [] [Const.codev (CodeUnit.mk [] [] []),
        Const.codev (CodeUnit.mk [] [] [])]) []) (CodeUnit.mk [] [] []) = 2 := by
  have h := search_recursively_two_identical (fun _ => (0 : Nat)) [] []
    (CodeUnit.mk [] [] [])
    (by intro cu hc; rw [show (CodeUnit.mk [] [] []).co_consts = [] from rfl] at hc; cases hc)
  refine ⟨h, ?_, ?_⟩
  · rw [h]
    decide
  · rw [h]
    decide

/-- C5 (amended): the traversal result map is keyed by structural equality of
code units (CPython code objects compare and hash structurally, and `_memo` is
a `dict`), so two structurally identical units reachable from the top-level
unit share one entry, analysed once — not one entry per object identity. -/
theorem claim_C5 {α : Type} (f : CodeUnit → α) (bc : List Nat)
    (bn : List String) (L : CodeUnit)
    (hL : ∀ cu : CodeUnit, Const.codev cu ∉ L.co_consts) :
    search_recursively f (CodeUnit.mk bc bn [Const.codev L, Const.codev L]) [] =
      [(CodeUnit.mk bc bn [Const.codev L, Const.codev L],
        f (CodeUnit.mk bc bn [Const.codev L, Const.codev L])), (L, f L)] ∧
    countKey (search_recursively f
      (CodeUnit.mk bc bn [Const.codev L, Const.codev L]) []) L = 1 := by
  have hmap := search_recursively_two_identical f bc bn L hL
  have hLP : L ≠ CodeUnit.mk bc bn [Const.codev L, Const.codev L] := by
    intro he
    apply hL L
    conv_lhs => rw [he]
    rw [show (CodeUnit.mk bc bn [Const.codev L, Const.codev L]).co_consts =
      [Const.codev L, Const.codev L] from rfl]
    exact List.mem_cons_self _ _
  refine ⟨hmap, ?_⟩
  rw [hmap, countKey]
  rw [show keys [(CodeUnit.mk bc bn [Const.codev L, Const.codev L],
      f (CodeUnit.mk bc bn [Const.codev L, Const.codev L])), (L, f L)] =
    [CodeUnit.mk bc bn [Const.codev L, Const.codev L], L] from rfl]
  rw [List.count_cons, List.count_cons, List.count_nil]
  simp [hLP, Ne.symm hLP]

/-- C5 witness: a concrete instance of the amended claim. -/
theorem claim_C5_witness :
    search_recursively (fun c => c.co_names.length)
      (CodeUnit.mk [9] ["n"] [Const.codev (CodeUnit.mk [] [] []),
        Const.codev (CodeUnit.mk [] [] [])]) [] =
      [(CodeUnit.mk [9] ["n"] [Const.codev (CodeUnit.mk [] [] []),
        Const.codev (CodeUnit.mk [] [] [])], 1), (CodeUnit.mk [] [] [], 0)] ∧
    countKey (search_recursively (fun c => c.co_names.length)
      (CodeUnit.mk [9] ["n"] [Const.codev (CodeUnit.mk [] [] []),
        Const.codev (CodeUnit.mk [] [] [])]) []) (CodeUnit.mk [] [] []) = 1 :=
  claim_C5 (fun c => c.co_names.length) [9] ["n"] (CodeUnit.mk [] [] [])
    (by intro cu hc;
        rw [show (CodeUnit.mk [] [] []).co_consts = [] from rfl] at hc;
        cases hc)

/-- C6: scanning a top-level unit twice independently yields identical result
maps (the scan is a pure function of the unit); within one traversal every
reachable unit — in particular one reachable from two different parents —
appears exactly once as a key, and its entry is the analysis result of that
unit (the analysis is applied once per distinct unit). -/
theorem claim_C6 {α : Type} (f : CodeUnit → α) (code : CodeUnit) :
    search_recursively f code [] = search_recursively f code [] ∧
    (∀ u, Reachable code u → countKey (search_recursively f code []) u = 1) ∧
    (∀ p ∈ search_recursively f code [], p.2 = f p.1) := by
  refine ⟨rfl, ?_, ?_⟩
  · intro u hru
    have hempty_inv : Inv ([] : List (CodeUnit × α)) [] := by
      intro k hk
      simp [keys] at hk
    obtain ⟨-, hcov⟩ := search_recursively_complete f code [] [] hempty_inv
      (fun a ha => by cases ha)
    have hnodup := search_recursively_nodup f code [] (by simp [keys])
    exact countKey_eq_one hnodup (hcov u hru)
  · exact search_recursively_entries f code [] (by intro p hp; cases hp)

/-- C6 witness: a child unit reachable from a parent appears exactly once in
the parent's result map. -/
theorem claim_C6_witness :
    countKey (search_recursively (fun _ => (0 : Nat))
      (CodeUnit.mk [] [] [Const.codev (CodeUnit.mk [] [] []),
        Const.codev (CodeUnit.mk [7] [] [])]) [])
      (CodeUnit.mk [] [] []) = 1 :=
  (claim_C6 (fun _ => (0 : Nat)) _).2.1 (CodeUnit.mk [] [] [])
    (Reachable.step (CodeUnit.mk [] [] []) (by decide) (Reachable.refl _))

theorem hashTerm_cyclic_aux :
    ∀ i, HashTerm [⟨[], [], [AConst.acode 0]⟩] i → i = 0 → False := by
  intro i h
  induction h with
  | mk i hchild ih =>
    intro hi
    subst hi
    exact ih 0 (by decide) rfl

/-- Hashing the self-referential unit has no finite derivation: node 0 of
this arena holds a constants tuple whose sole element is node 0 itself, so
`code_hash` recurses into itself with nothing to stop it. -/
theorem hashTerm_cyclic : ¬ HashTerm [⟨[], [], [AConst.acode 0]⟩] 0 :=
  fun h => hashTerm_cyclic_aux 0 h rfl

/-- No evaluation of the scan exists on the self-referential unit: both
rules of `SearchEvalA` hash the key before anything else, exactly as the
`dict` operations of the source do. -/
theorem searchEvalA_cyclic_stuck {α : Type} (f : Nat → α) :
    ∀ r, ¬ SearchEvalA f [⟨[], [], [AConst.acode 0]⟩] 0 [] r := by
  intro r h
  cases h with
  | hit _ _ hh _ => exact hashTerm_cyclic hh
  | miss _ _ _ hh _ _ => exact hashTerm_cyclic hh

/-- Sanity check that the evaluation relation is inhabited on ordinary
units: a single leaf node scans to exactly its own entry. -/
theorem searchEvalA_leaf {α : Type} (f : Nat → α) :
    SearchEvalA f [⟨[], [], []⟩] 0 [] [(0, f 0)] := by
  refine SearchEvalA.miss 0 [] [(0, f 0)]
    (HashTerm.mk 0 ?_) ?_ ?_
  · intro j hj
    cases hj
  · rintro ⟨p, hp, -⟩
    cases hp
  · exact ConstsEvalA.nil [(0, f 0)]

/-- Sanity check on a two-node acyclic graph: a parent holding one distinct
leaf child scans to one entry per node, parent first. -/
theorem searchEvalA_parent_leaf {α : Type} (f : Nat → α) :
    SearchEvalA f [⟨[], [], [AConst.acode 1]⟩, ⟨[7], [], []⟩] 0 []
      [(0, f 0), (1, f 1)] := by
  have hc1 : ([⟨[], [], [AConst.acode 1]⟩, ⟨[7], [], []⟩].getD 1
      blankNode).aco_consts = ([] : List AConst) := rfl
  have hc0 : ([⟨[], [], [AConst.acode 1]⟩, ⟨[7], [], []⟩].getD 0
      blankNode).aco_consts = [AConst.acode 1] := rfl
  have hterm1 : HashTerm [⟨[], [], [AConst.acode 1]⟩, ⟨[7], [], []⟩] 1 :=
    HashTerm.mk 1 (by
      intro j hj
      rw [hc1] at hj
      cases hj)
  have hterm0 : HashTerm [⟨[], [], [AConst.acode 1]⟩, ⟨[7], [], []⟩] 0 :=
    HashTerm.mk 0 (by
      intro j hj
      rw [hc0] at hj
      have hj' : AConst.acode j = AConst.acode 1 := List.mem_singleton.mp hj
      injection hj' with hj''
      rw [hj'']
      exact hterm1)
  refine SearchEvalA.miss 0 [] _ hterm0 ?_ ?_
  · rintro ⟨p, hp, -⟩
    cases hp
  · rw [hc0]
    refine ConstsEvalA.consCode 1 [] _ _ _ ?_ (ConstsEvalA.nil _)
    refine SearchEvalA.miss 1 [(0, f 0)] _ hterm1 ?_ ?_
    · rintro ⟨p, hp, heq⟩
      obtain rfl : p = (0, f 0) := List.mem_singleton.mp hp
      dsimp only at heq
      cases heq
      rename_i hcode hnames hconsts
      exact absurd hcode (by decide)
    · rw [hc1]
      exact ConstsEvalA.nil _

/-- C7 counterexample: the synthetic unit whose constants sequence contains
a reference back to the unit itself (node 0 of a one-node arena).  The
original claim predicts the scan terminates with exactly one entry for this
unit, i.e. evaluates to the map `[(0, f 0)]`; in fact no evaluation exists at
all, because the first membership test's structural hash of the key has no
finite derivation — the entered-before-children discipline is never reached.
The third conjunct shows the relation does evaluate the same unit without
the self-reference, so the failure is precisely the cycle. -/
theorem claim_C7_counterexample :
    ¬ HashTerm [⟨[], [], [AConst.acode 0]⟩] 0 ∧
    ¬ SearchEvalA (fun i => i) [⟨[], [], [AConst.acode 0]⟩] 0 [] [(0, 0)] ∧
    SearchEvalA (fun i => i) [⟨[], [], []⟩] 0 [] [(0, 0)] :=
  ⟨hashTerm_cyclic, searchEvalA_cyclic_stuck (fun i => i) [(0, 0)],
    searchEvalA_leaf (fun i => i)⟩

/-- C7 (amended): for every code unit constructible through the compiler —
the finite trees of the inductive embedding, constants tuples being
immutable — `search_recursively` terminates with exactly one entry for the
scanned unit, and the unit is entered into the map before its nested units
are visited.  A forged self-referential unit, however, is not saved by that
discipline: the memo `dict` structurally hashes the key at the very first
membership test, with no memoization in the hash recursion, so on such a
unit the scan does not terminate at all (no evaluation derivation exists for
any result). -/
theorem claim_C7 {α : Type} (f : CodeUnit → α) (code : CodeUnit) :
    (countKey (search_recursively f code []) code = 1 ∧
      (∀ (memo : List (CodeUnit × α)), code ∉ keys memo →
        search_recursively f code memo =
          searchConsts f code.co_consts (memo ++ [(code, f code)]))) ∧
    (¬ HashTerm [⟨[], [], [AConst.acode 0]⟩] 0 ∧
      ∀ (r : List (Nat × Nat)),
        ¬ SearchEvalA (fun i => i) [⟨[], [], [AConst.acode 0]⟩] 0 [] r) := by
  refine ⟨⟨?_, ?_⟩, hashTerm_cyclic, searchEvalA_cyclic_stuck (fun i => i)⟩
  · have hempty_inv : Inv ([] : List (CodeUnit × α)) [] := by
      intro k hk
      simp [keys] at hk
    obtain ⟨-, hcov⟩ := search_recursively_complete f code [] [] hempty_inv
      (fun a ha => by cases ha)
    have hnodup := search_recursively_nodup f code [] (by simp [keys])
    exact countKey_eq_one hnodup (hcov code (Reachable.refl code))
  · intro memo h
    rw [search_recursively, if_neg h]

/-- C7 witness: concrete instances of both halves. -/
theorem claim_C7_witness :
    countKey (search_recursively (fun _ => (0 : Nat))
      (CodeUnit.mk [] [] []) []) (CodeUnit.mk [] [] []) = 1 ∧
    search_recursively (fun _ => (0 : Nat)) (CodeUnit.mk [] [] []) [] =
      searchConsts (fun _ => (0 : Nat)) (CodeUnit.mk [] [] []).co_consts
        ([] ++ [(CodeUnit.mk [] [] [], 0)]) ∧
    ¬ SearchEvalA (fun i => i) [⟨[], [], [AConst.acode 0]⟩] 0 [] [] :=
  ⟨(claim_C7 (fun _ => (0 : Nat)) (CodeUnit.mk [] [] [])).1.1,
    (claim_C7 (fun _ => (0 : Nat)) (CodeUnit.mk [] [] [])).1.2 []
      (by simp [keys]),
    (claim_C7 (fun _ => (0 : Nat)) (CodeUnit.mk [] [] [])).2.2 []⟩

end Bytecode
